import Mathlib

/-!
Verification of the AI-Cli streaming decoders, context store and
conversation manager, shallowly embedded from the JavaScript sources
(src/ai.js a.k.a. `src/unnamed/part_000` and the listing embedded in
`src/README.md`, `src/src/context.js`, `src/src/config.js`).

Modelling conventions:
* JavaScript values flowing through `JSON.parse` / `JSON.stringify` are
  modelled by the inductive `Json` below.  Numbers are kept exactly as
  mantissa × 10^exponent pairs (IEEE-754 rounding/overflow is not modelled;
  no claim depends on numeric values beyond zero/non-zero truthiness).
* Property access `x.f` on a possibly-absent value is `jsField`;
  `undefined` is `Option.none`.  JavaScript truthiness is `jsTruthy`.
* Byte streams are modelled at Unicode-scalar granularity (`List Char`);
  `TextDecoder` with `stream: true` reassembles split UTF-8 sequences, so
  chunk boundaries in the model are boundaries between scalar values.
-/

namespace AiCli

/-- Model of a JavaScript JSON value (result of a successful `JSON.parse`). -/
inductive Json : Type where
  | null : Json
  | bool (b : Bool) : Json
  | num (m : Int) (e : Int) : Json
  | str (s : String) : Json
  | arr (elems : List Json) : Json
  | obj (fields : List (String × Json)) : Json
deriving Repr

/-- JavaScript object property lookup when the same key is written twice:
`JSON.parse` keeps the last occurrence, so lookup returns the last match. -/
def lookupLast : List (String × Json) → String → Option Json
  | [], _ => none
  | (k', v) :: rest, k =>
    match lookupLast rest k with
    | some r => some r
    | none => if k' = k then some v else none

/-- `x.f` for a possibly-undefined `x`: property access on objects; on all
other values the named properties used by this program are `undefined`. -/
def jsField : Option Json → String → Option Json
  | some (Json.obj fs), k => lookupLast fs k
  | _, _ => none

/-- `x[i]` (numeric index): arrays index their elements, strings yield the
one-character string at that position, objects use the decimal string key. -/
def jsIndex : Option Json → Nat → Option Json
  | some (Json.arr xs), i => xs.get? i
  | some (Json.str s), i => (s.data.get? i).map (fun c => Json.str (String.mk [c]))
  | some (Json.obj fs), i => lookupLast fs (toString i)
  | _, _ => none

/-- JavaScript truthiness of a possibly-undefined value. -/
def jsTruthy : Option Json → Bool
  | none => false
  | some Json.null => false
  | some (Json.bool b) => b
  | some (Json.num m _) => m != 0
  | some (Json.str s) => s != ""
  | some (Json.arr _) => true
  | some (Json.obj _) => true

/-! ### JSON text parser (model of `JSON.parse`)

The parser works on `List Char`.  Recursion over nested values is paid for
with a fuel parameter; the top-level entry point supplies fuel that is ample
for any input that parses at all (monotonicity in the fuel is proved below).
-/

/-- The four whitespace characters allowed between JSON tokens. -/
def isJsonWs (c : Char) : Bool :=
  c = ' ' || c = '\t' || c = '\n' || c = '\r'

/-- Drop leading JSON whitespace. -/
def skipWs : List Char → List Char
  | [] => []
  | c :: cs => if isJsonWs c then skipWs cs else c :: cs

/-- Value of one hexadecimal digit. -/
def hexVal (c : Char) : Option Nat :=
  if '0' ≤ c ∧ c ≤ '9' then some (c.toNat - '0'.toNat)
  else if 'a' ≤ c ∧ c ≤ 'f' then some (c.toNat - 'a'.toNat + 10)
  else if 'A' ≤ c ∧ c ≤ 'F' then some (c.toNat - 'A'.toNat + 10)
  else none

/-- Translation of a single-character escape (`\"`, `\\`, `\/`, `\b`, `\f`,
`\n`, `\r`, `\t`). -/
def escChar (c : Char) : Option Char :=
  if c = '"' then some '"'
  else if c = '\\' then some '\\'
  else if c = '/' then some '/'
  else if c = 'b' then some (Char.ofNat 8)
  else if c = 'f' then some (Char.ofNat 12)
  else if c = 'n' then some '\n'
  else if c = 'r' then some (Char.ofNat 13)
  else if c = 't' then some (Char.ofNat 9)
  else none

/-- Parse the body of a JSON string after the opening quote; returns the
decoded characters and the input after the closing quote.  (Surrogate-pair
`\u` escapes are not recombined; the program never emits them.)  The fuel
argument only pays for the recursion; every call site passes at least the
input length plus one, and each step consumes at least one character, so
the fuel never runs out before the input does. -/
def parseStrAux : Nat → List Char → Option (List Char × List Char)
  | 0, _ => none
  | Nat.succ f, cs =>
    match cs with
    | [] => none
    | c :: cs' =>
      if c = '"' then some ([], cs')
      else if c = '\\' then
        match cs' with
        | [] => none
        | e :: cs2 =>
          if e = 'u' then
            match cs2 with
            | h1 :: h2 :: h3 :: h4 :: cs3 =>
              (match hexVal h1, hexVal h2, hexVal h3, hexVal h4 with
               | some a, some b, some hc, some d =>
                 (match parseStrAux f cs3 with
                  | some (s, r) =>
                    some (Char.ofNat (((a * 16 + b) * 16 + hc) * 16 + d) :: s, r)
                  | none => none)
               | _, _, _, _ => none)
            | _ => none
          else
            match escChar e with
            | some d =>
              (match parseStrAux f cs2 with
               | some (s, r) => some (d :: s, r)
               | none => none)
            | none => none
      else if c.toNat < 32 then none
      else
        match parseStrAux f cs' with
        | some (s, r) => some (c :: s, r)
        | none => none

/-- Numeric value of a digit character. -/
def digitVal (c : Char) : Nat := c.toNat - '0'.toNat

/-- Take the maximal run of decimal digits. -/
def takeDigits : List Char → List Char × List Char
  | [] => ([], [])
  | c :: cs =>
    if c.isDigit then
      let (ds, r) := takeDigits cs
      (c :: ds, r)
    else ([], c :: cs)

/-- Value of a digit run. -/
def digitsToNat (acc : Nat) : List Char → Nat
  | [] => acc
  | c :: cs => digitsToNat (acc * 10 + digitVal c) cs

/-- Fraction part: `.` followed by at least one digit, or nothing. -/
def parseFrac : List Char → Option (List Char × List Char)
  | '.' :: r =>
    let (ds, rest) := takeDigits r
    if ds = [] then none else some (ds, rest)
  | cs => some (([], cs))

/-- Exponent digits with optional sign (after `e`/`E`). -/
def parseExpTail (r : List Char) : Option (Int × List Char) :=
  let (esign, r1) : Int × List Char :=
    match r with
    | '+' :: t => (1, t)
    | '-' :: t => (-1, t)
    | _ => (1, r)
  let (eds, rest) := takeDigits r1
  if eds = [] then none else some (esign * (digitsToNat 0 eds : Int), rest)

/-- Exponent part, or nothing. -/
def parseExp : List Char → Option (Int × List Char)
  | 'e' :: r => parseExpTail r
  | 'E' :: r => parseExpTail r
  | cs => some ((0, cs))

/-- JSON number per the grammar `-? int frac? exp?` (no leading zeros). -/
def parseNumber (cs : List Char) : Option (Json × List Char) := do
  let (neg, cs1) : Bool × List Char :=
    match cs with
    | c :: r => if c = '-' then (true, r) else (false, c :: r)
    | [] => (false, [])
  let (ids, cs2) := takeDigits cs1
  if ids = [] then none
  else if 1 < ids.length ∧ ids.headD 'x' = '0' then none
  else do
    let (fds, cs3) ← parseFrac cs2
    let (ex, cs4) ← parseExp cs3
    let mant : Int := (digitsToNat 0 (ids ++ fds) : Nat)
    let mant := if neg then -mant else mant
    some (Json.num mant (ex - fds.length), cs4)

mutual

/-- Parse one JSON value (leading whitespace allowed). -/
def parseVal : Nat → List Char → Option (Json × List Char)
  | 0, _ => none
  | Nat.succ fuel, cs =>
    match skipWs cs with
    | [] => none
    | c :: r =>
      if c = '"' then
        match parseStrAux (r.length + 1) r with
        | some (s, rest) => some (Json.str (String.mk s), rest)
        | none => none
      else if c = '{' then
        match skipWs r with
        | [] => none
        | c2 :: r2 =>
          if c2 = '}' then some (Json.obj [], r2)
          else
            match parseMembers fuel (c2 :: r2) with
            | some (fs, rest) => some (Json.obj fs, rest)
            | none => none
      else if c = '[' then
        match skipWs r with
        | [] => none
        | c2 :: r2 =>
          if c2 = ']' then some (Json.arr [], r2)
          else
            match parseElems fuel (c2 :: r2) with
            | some (xs, rest) => some (Json.arr xs, rest)
            | none => none
      else if c = 't' then
        match r with
        | 'r' :: 'u' :: 'e' :: rest => some (Json.bool true, rest)
        | _ => none
      else if c = 'f' then
        match r with
        | 'a' :: 'l' :: 's' :: 'e' :: rest => some (Json.bool false, rest)
        | _ => none
      else if c = 'n' then
        match r with
        | 'u' :: 'l' :: 'l' :: rest => some (Json.null, rest)
        | _ => none
      else parseNumber (c :: r)

/-- Parse the non-empty element list of an array, up to and including `]`. -/
def parseElems : Nat → List Char → Option (List Json × List Char)
  | 0, _ => none
  | Nat.succ fuel, cs =>
    match parseVal fuel cs with
    | none => none
    | some (v, r) =>
      match skipWs r with
      | [] => none
      | c :: r2 =>
        if c = ',' then
          match parseElems fuel r2 with
          | some (vs, rest) => some (v :: vs, rest)
          | none => none
        else if c = ']' then some ([v], r2)
        else none

/-- Parse the non-empty member list of an object, up to and including `}`. -/
def parseMembers : Nat → List Char → Option (List (String × Json) × List Char)
  | 0, _ => none
  | Nat.succ fuel, cs =>
    match skipWs cs with
    | [] => none
    | c :: r =>
      if c = '"' then
        match parseStrAux (r.length + 1) r with
        | none => none
        | some (k, r1) =>
          match skipWs r1 with
          | [] => none
          | c2 :: r2 =>
            if c2 = ':' then
              match parseVal fuel r2 with
              | none => none
              | some (v, r3) =>
                match skipWs r3 with
                | [] => none
                | c3 :: r4 =>
                  if c3 = ',' then
                    match parseMembers fuel r4 with
                    | some (fs, rest) => some ((String.mk k, v) :: fs, rest)
                    | none => none
                  else if c3 = '}' then some ([(String.mk k, v)], r4)
                  else none
            else none
      else none

end

/-- Model of `JSON.parse` on a character sequence: one value, possibly
surrounded by whitespace, consuming the whole input; `none` models a thrown
`SyntaxError`. -/
def jsonParse (cs : List Char) : Option Json :=
  match parseVal (2 * cs.length + 2) cs with
  | some (j, rest) => if skipWs rest = [] then some j else none
  | none => none

/-! ### Stream decoders

`handleStreamingResponse` (cloud, SSE) and `handleOllamaStreamingResponse`
(local daemon, NDJSON) from src/ai.js.  Both keep a `buffer` of the trailing
incomplete line, a `fullResponse` accumulator, and stop at the termination
signal by returning out of the read loop; the returned-from state is the
`terminated` flag here.  The fragments written to the terminal are recorded
in `frags` (each fragment is written exactly when it is accumulated). -/

/-- Decoder state: fragments written so far, the accumulated `fullResponse`,
and whether the decoder has returned (termination signal seen). -/
structure DecSt where
  frags : List String
  full : String
  terminated : Bool
deriving Repr, DecidableEq

/-- Initial decoder state. -/
def initDec : DecSt := ⟨[], "", false⟩

/-- Whitespace removed by JavaScript `String.prototype.trim`
(the characters relevant at line granularity; lines contain no `\n`). -/
def isJsWsChar (c : Char) : Bool :=
  c = ' ' || c = '\t' || c = '\n' || c = '\r' ||
  c = Char.ofNat 11 || c = Char.ofNat 12 || c = Char.ofNat 0xa0 ||
  c = Char.ofNat 0xfeff || c = Char.ofNat 0x2028 || c = Char.ofNat 0x2029

/-- `line.startsWith('data: ')` combined with `line.slice(6)`: the payload
after the `data: ` prefix, if the prefix is present. -/
def dataPayload? : List Char → Option (List Char)
  | 'd' :: 'a' :: 't' :: 'a' :: ':' :: ' ' :: rest => some rest
  | _ => none

/-- One complete line of the cloud (SSE) decoder, src/ai.js lines 53–76.
`process.stdout.write(content)` throws a `TypeError` for any truthy
non-string `content`; that throw is caught by the enclosing `try` before
`fullResponse += content` runs, so exactly the truthy *string* contents
contribute a fragment.  Likewise `parsed.choices` on a non-object `parsed`
(including `null`, where the access throws inside the same `try`) yields no
fragment. -/
def processSSELine (st : DecSt) (line : List Char) : DecSt :=
  if st.terminated then st
  else if line.all isJsWsChar then st
  else
    match dataPayload? line with
    | none => st
    | some data =>
      if data = "[DONE]".data then { st with terminated := true }
      else
        match jsonParse data with
        | none => st
        | some parsed =>
          let c0 := jsIndex (jsField (some parsed) "choices") 0
          if jsTruthy (jsField (some parsed) "choices") && jsTruthy c0 &&
              jsTruthy (jsField c0 "delta") then
            match jsField (jsField c0 "delta") "content" with
            | some (Json.str s) =>
              if s = "" then st
              else { st with frags := st.frags ++ [s], full := st.full ++ s }
            | _ => st
          else st

/-- One complete line of the local-daemon (NDJSON) decoder, README listing
lines 574–593.  The `done` flag is checked after the content write, so a
record carrying both yields its fragment first; a truthy non-string content
makes the terminal write throw (caught by the same `try`), skipping both the
accumulation and the `done` check for that line. -/
def processOllamaLine (st : DecSt) (line : List Char) : DecSt :=
  if st.terminated then st
  else if line.all isJsWsChar then st
  else
    match jsonParse line with
    | none => st
    | some parsed =>
      let msg := jsField (some parsed) "message"
      if jsTruthy msg && jsTruthy (jsField msg "content") then
        match jsField msg "content" with
        | some (Json.str s) =>
          let st1 := { st with frags := st.frags ++ [s], full := st.full ++ s }
          if jsTruthy (jsField (some parsed) "done") then
            { st1 with terminated := true }
          else st1
        | _ => st
      else
        if jsTruthy (jsField (some parsed) "done") then
          { st with terminated := true }
        else st

/-- `buffer.split('\n')` on characters: always returns at least one (possibly
empty) piece; pieces contain no `'\n'`. -/
def splitNl : List Char → List (List Char)
  | [] => [[]]
  | c :: cs =>
    if c = '\n' then [] :: splitNl cs
    else
      match splitNl cs with
      | [] => [[c]]
      | l :: ls => (c :: l) :: ls

/-- Last element of a split (the `lines.pop() || ''` buffer carry-over). -/
def lastD : List (List Char) → List Char
  | [] => []
  | [l] => l
  | _ :: ls => lastD ls

/-- Runner state: carried buffer plus decoder state. -/
structure BufSt where
  buffer : List Char
  dec : DecSt
deriving Repr, DecidableEq

/-- One chunk arriving from `reader.read()`: append to the buffer, split on
newlines, carry the last piece, feed the complete lines to the per-line
processor.  Once the decoder has returned, later chunks are never read. -/
def feedChunk (pl : DecSt → List Char → DecSt) (bs : BufSt) (chunk : List Char) :
    BufSt :=
  if bs.dec.terminated then bs
  else
    let ls := splitNl (bs.buffer ++ chunk)
    { buffer := lastD ls, dec := ls.dropLast.foldl pl bs.dec }

/-- Run a decoder over a chunked delivery; at end of stream the loop breaks
and the accumulated state is returned (a trailing incomplete line is never
treated as a record). -/
def runDecoder (pl : DecSt → List Char → DecSt) (chunks : List (List Char)) :
    DecSt :=
  (chunks.foldl (feedChunk pl) ⟨[], initDec⟩).dec

/-- `handleStreamingResponse` on a chunked body. -/
def decodeSSE (chunks : List (List Char)) : DecSt := runDecoder processSSELine chunks

/-- `handleOllamaStreamingResponse` on a chunked body. -/
def decodeOllama (chunks : List (List Char)) : DecSt :=
  runDecoder processOllamaLine chunks

/-- Processing a list of already-complete lines (the loop body of either
decoder). -/
def runLines (pl : DecSt → List Char → DecSt) (st : DecSt)
    (lines : List (List Char)) : DecSt :=
  lines.foldl pl st

/-- The stream of complete lines produced by the buffering discipline when
the chunks arrive one by one with initial buffer `buf`. -/
def linesStream : List Char → List (List Char) → List (List Char)
  | _, [] => []
  | buf, c :: cs =>
    (splitNl (buf ++ c)).dropLast ++ linesStream (lastD (splitNl (buf ++ c))) cs

/-! ### Supporting lemmas about `splitNl` and the buffering discipline -/

/-- Prepend a prefix onto the first piece of a split. -/
def consHead (p : List Char) : List (List Char) → List (List Char)
  | [] => []
  | l :: ls => (p ++ l) :: ls

theorem consHead_nil_pre (xs : List (List Char)) : consHead [] xs = xs := by
  cases xs <;> simp [consHead]

theorem consHead_ne_nil (p : List Char) {xs : List (List Char)} (h : xs ≠ []) :
    consHead p xs ≠ [] := by
  cases xs with
  | nil => exact absurd rfl h
  | cons l ls => simp [consHead]

theorem splitNl_ne_nil (cs : List Char) : splitNl cs ≠ [] := by
  cases cs with
  | nil => simp [splitNl]
  | cons c cs' =>
    simp only [splitNl]
    split
    · simp
    · split <;> simp

theorem lastD_cons_ne {x : List Char} {xs : List (List Char)} (h : xs ≠ []) :
    lastD (x :: xs) = lastD xs := by
  cases xs with
  | nil => exact absurd rfl h
  | cons y ys => rfl

theorem dropLast_cons_ne {α : Type} {x : α} {xs : List α} (h : xs ≠ []) :
    (x :: xs).dropLast = x :: xs.dropLast := by
  cases xs with
  | nil => exact absurd rfl h
  | cons y ys => rfl

theorem dropLast_append_ne {α : Type} (xs : List α) {ys : List α} (h : ys ≠ []) :
    (xs ++ ys).dropLast = xs ++ ys.dropLast := by
  induction xs with
  | nil => rfl
  | cons x xs ih =>
    have hne : xs ++ ys ≠ [] := by
      intro hc
      exact h (List.append_eq_nil.mp hc).2
    rw [List.cons_append, dropLast_cons_ne hne, ih, List.cons_append]

theorem lastD_append_ne (xs : List (List Char)) {ys : List (List Char)}
    (h : ys ≠ []) : lastD (xs ++ ys) = lastD ys := by
  induction xs with
  | nil => rfl
  | cons x xs ih =>
    have hne : xs ++ ys ≠ [] := by
      intro hc
      exact h (List.append_eq_nil.mp hc).2
    rw [List.cons_append, lastD_cons_ne hne, ih]

/-- How splitting distributes over concatenation: the prefix contributes its
complete lines, its trailing piece merges with the first piece of the
suffix's split. -/
theorem splitNl_append : ∀ a b : List Char,
    splitNl (a ++ b) =
      (splitNl a).dropLast ++ consHead (lastD (splitNl a)) (splitNl b) := by
  intro a
  induction a with
  | nil => intro b; simp [splitNl, lastD, consHead_nil_pre]
  | cons c a' ih =>
    intro b
    by_cases hc : c = '\n'
    · subst hc
      have h1 : splitNl ('\n' :: a') = [] :: splitNl a' := by simp [splitNl]
      have h2 : splitNl ('\n' :: (a' ++ b)) = [] :: splitNl (a' ++ b) := by
        simp [splitNl]
      rw [List.cons_append, h2, ih, h1, dropLast_cons_ne (splitNl_ne_nil a'),
        lastD_cons_ne (splitNl_ne_nil a'), List.cons_append]
    · cases hsp : splitNl a' with
      | nil => exact absurd hsp (splitNl_ne_nil a')
      | cons l ls =>
        have hcons : splitNl (c :: a') = (c :: l) :: ls := by
          simp only [splitNl, if_neg hc, hsp]
        have hstep : ∀ m ms, splitNl (a' ++ b) = m :: ms →
            splitNl (c :: (a' ++ b)) = (c :: m) :: ms := by
          intro m ms hm
          simp only [splitNl, if_neg hc, hm]
        cases ls with
        | nil =>
          cases hb : splitNl b with
          | nil => exact absurd hb (splitNl_ne_nil b)
          | cons m ms =>
            have habs : splitNl (a' ++ b) = (l ++ m) :: ms := by
              rw [ih, hsp, hb]
              simp [lastD, consHead]
            rw [List.cons_append, hstep _ _ habs, hcons]
            simp [lastD, consHead, hb]
        | cons l2 ls2 =>
          have hne : ls2.dropLast ++ consHead (lastD (l2 :: ls2)) (splitNl b) ≠
              [] ∨ True := Or.inr trivial
          have habs : splitNl (a' ++ b) =
              l :: ((l2 :: ls2).dropLast ++
                consHead (lastD (l2 :: ls2)) (splitNl b)) := by
            rw [ih, hsp, dropLast_cons_ne (by simp : (l2 :: ls2 : List (List Char)) ≠ []),
              lastD_cons_ne (by simp : (l2 :: ls2 : List (List Char)) ≠ [])]
            rfl
          rw [List.cons_append, hstep _ _ habs, hcons,
            dropLast_cons_ne (by simp : (l2 :: ls2 : List (List Char)) ≠ []),
            lastD_cons_ne (by simp : (l2 :: ls2 : List (List Char)) ≠ [])]
          cases hb : splitNl b with
          | nil => exact absurd hb (splitNl_ne_nil b)
          | cons m ms => simp [consHead]

/-- The trailing piece of a split contains no newline. -/
theorem lastD_splitNl_noNl (cs : List Char) : '\n' ∉ lastD (splitNl cs) := by
  induction cs with
  | nil => simp [splitNl, lastD]
  | cons c cs' ih =>
    by_cases hc : c = '\n'
    · subst hc
      have h1 : splitNl ('\n' :: cs') = [] :: splitNl cs' := by simp [splitNl]
      rw [h1, lastD_cons_ne (splitNl_ne_nil cs')]
      exact ih
    · cases hsp : splitNl cs' with
      | nil => exact absurd hsp (splitNl_ne_nil cs')
      | cons l ls =>
        have hcons : splitNl (c :: cs') = (c :: l) :: ls := by
          simp only [splitNl, if_neg hc, hsp]
        rw [hcons]
        cases ls with
        | nil =>
          rw [hsp] at ih
          simp only [lastD] at ih ⊢
          intro hmem
          rcases List.mem_cons.mp hmem with h | h
          · exact hc h.symm
          · exact ih h
        | cons l2 ls2 =>
          rw [hsp] at ih
          rwa [lastD_cons_ne (by simp : (l2 :: ls2 : List (List Char)) ≠ [])] at ih ⊢

/-- A newline-free text splits to itself as the single piece. -/
theorem splitNl_of_noNl : ∀ l : List Char, '\n' ∉ l → splitNl l = [l] := by
  intro l
  induction l with
  | nil => intro _; rfl
  | cons c l' ih =>
    intro h
    have hc : c ≠ '\n' := fun hc => h (hc ▸ List.mem_cons_self c l')
    have hl : '\n' ∉ l' := fun hm => h (List.mem_cons_of_mem c hm)
    simp only [splitNl, if_neg hc, ih hl]

/-- Merging two adjacent chunks does not change the stream of complete
lines. -/
theorem linesStream_merge (buf a b : List Char) (cs : List (List Char)) :
    linesStream buf (a :: b :: cs) = linesStream buf ((a ++ b) :: cs) := by
  have hS2 : splitNl (lastD (splitNl (buf ++ a)) ++ b) =
      consHead (lastD (splitNl (buf ++ a))) (splitNl b) := by
    rw [splitNl_append, splitNl_of_noNl _ (lastD_splitNl_noNl (buf ++ a))]
    simp [lastD]
  have hne : consHead (lastD (splitNl (buf ++ a))) (splitNl b) ≠ [] :=
    consHead_ne_nil _ (splitNl_ne_nil b)
  have hS3 : splitNl (buf ++ (a ++ b)) =
      (splitNl (buf ++ a)).dropLast ++
        consHead (lastD (splitNl (buf ++ a))) (splitNl b) := by
    rw [← List.append_assoc, splitNl_append]
  simp only [linesStream, hS2, hS3,
    dropLast_append_ne _ hne, lastD_append_ne _ hne, List.append_assoc]

/-- Any chunked delivery produces the same complete-line stream as the
single chunk that concatenates it. -/
theorem linesStream_collapse :
    ∀ (cs : List (List Char)) (buf c : List Char),
      linesStream buf (c :: cs) = linesStream buf [c ++ cs.flatten] := by
  intro cs
  induction cs with
  | nil => intro buf c; simp
  | cons c2 cs' ih =>
    intro buf c
    rw [linesStream_merge, ih, List.flatten_cons, List.append_assoc]

/-- A per-line processor that never resumes after the decoder has returned
(both decoders have this shape: `return` exits the whole read loop). -/
def GuardPl (pl : DecSt → List Char → DecSt) : Prop :=
  ∀ st l, st.terminated = true → pl st l = st

theorem sse_guard : GuardPl processSSELine := by
  intro st l h
  simp [processSSELine, h]

theorem ollama_guard : GuardPl processOllamaLine := by
  intro st l h
  simp [processOllamaLine, h]

theorem runLines_term {pl : DecSt → List Char → DecSt} (hpl : GuardPl pl)
    {st : DecSt} (hst : st.terminated = true) :
    ∀ ls, runLines pl st ls = st := by
  intro ls
  induction ls with
  | nil => rfl
  | cons l ls ih =>
    show runLines pl (pl st l) ls = st
    rw [hpl st l hst]
    exact ih

/-- The chunked run of a decoder is the line-by-line run over the stream of
complete lines. -/
theorem runDecoder_eq_lines {pl : DecSt → List Char → DecSt} (hpl : GuardPl pl) :
    ∀ (chunks : List (List Char)) (bs : BufSt),
      (chunks.foldl (feedChunk pl) bs).dec =
        runLines pl bs.dec (linesStream bs.buffer chunks) := by
  intro chunks
  induction chunks with
  | nil => intro bs; rfl
  | cons c cs ih =>
    intro bs
    by_cases ht : bs.dec.terminated = true
    · have hfeed : feedChunk pl bs c = bs := by simp [feedChunk, ht]
      rw [List.foldl_cons, hfeed, ih bs, runLines_term hpl ht,
        runLines_term hpl ht]
    · have hfeed : feedChunk pl bs c =
          ⟨lastD (splitNl (bs.buffer ++ c)),
            runLines pl bs.dec (splitNl (bs.buffer ++ c)).dropLast⟩ := by
        simp [feedChunk, ht, runLines]
      rw [List.foldl_cons, hfeed, ih]
      show runLines pl (runLines pl bs.dec (splitNl (bs.buffer ++ c)).dropLast) _ = _
      rw [runLines, runLines, runLines, ← List.foldl_append]
      rfl

/-- **C2.** Chunk-boundary invariance of the stream decoders: decoding any
chunked delivery yields exactly the same decoder state (fragment sequence,
accumulated response string, termination flag) as decoding the whole
character sequence delivered as one single chunk — for both the SSE (cloud)
decoder and the NDJSON (local daemon) decoder. -/
theorem chunk_boundary_invariance (chunks : List (List Char)) :
    decodeSSE chunks = decodeSSE [chunks.flatten] ∧
    decodeOllama chunks = decodeOllama [chunks.flatten] := by
  constructor
  · unfold decodeSSE runDecoder
    rw [runDecoder_eq_lines sse_guard, runDecoder_eq_lines sse_guard]
    cases chunks with
    | nil => rfl
    | cons c cs => rw [linesStream_collapse, List.flatten_cons]
  · unfold decodeOllama runDecoder
    rw [runDecoder_eq_lines ollama_guard, runDecoder_eq_lines ollama_guard]
    cases chunks with
    | nil => rfl
    | cons c cs => rw [linesStream_collapse, List.flatten_cons]

/-! ### Whitespace-only lines never parse as JSON -/

theorem skipWs_allWs : ∀ l : List Char, l.all isJsWsChar = true →
    skipWs l = [] ∨ ∃ c t, skipWs l = c :: t ∧ isJsWsChar c = true ∧
      isJsonWs c = false ∧ t.all isJsWsChar = true := by
  intro l
  induction l with
  | nil => intro _; left; rfl
  | cons c t ih =>
    intro h
    rw [List.all_cons, Bool.and_eq_true] at h
    by_cases hj : isJsonWs c = true
    · rw [show skipWs (c :: t) = skipWs t from by simp [skipWs, hj]]
      exact ih h.2
    · right
      refine ⟨c, t, ?_, h.1, by simpa using hj, h.2⟩
      simp [skipWs, hj]

/-- If the remaining input starts with a character that cannot begin any
JSON token, the parser fails. -/
theorem parseVal_stuck (f : Nat) (l : List Char) (c : Char) (t : List Char)
    (hskip : skipWs l = c :: t) (h2 : c ≠ '"') (h3 : c ≠ '{') (h4 : c ≠ '[')
    (h5 : c ≠ 't') (h6 : c ≠ 'f') (h7 : c ≠ 'n') (h8 : c ≠ '-')
    (h9 : c.isDigit = false) : parseVal f l = none := by
  cases f with
  | zero => rfl
  | succ f =>
    simp only [parseVal, hskip]
    rw [if_neg h2, if_neg h3, if_neg h4, if_neg h5, if_neg h6, if_neg h7]
    simp only [parseNumber, if_neg h8, takeDigits, h9]
    simp

/-- A line consisting only of (JavaScript) whitespace is never valid JSON. -/
theorem jsonParse_allWs (l : List Char) (h : l.all isJsWsChar = true) :
    jsonParse l = none := by
  have hv : parseVal (2 * l.length + 2) l = none := by
    rcases skipWs_allWs l h with hnil | ⟨c, t, hskip, hws, hjw, _⟩
    · show parseVal (Nat.succ (2 * l.length + 1)) l = none
      simp only [parseVal, hnil]
    · have hcases : c = ' ' ∨ c = '\t' ∨ c = '\n' ∨ c = '\r' ∨
          c = Char.ofNat 11 ∨ c = Char.ofNat 12 ∨ c = Char.ofNat 0xa0 ∨
          c = Char.ofNat 0xfeff ∨ c = Char.ofNat 0x2028 ∨ c = Char.ofNat 0x2029 := by
        simpa [isJsWsChar, or_assoc] using hws
      rcases hcases with rfl | rfl | rfl | rfl | rfl | rfl | rfl | rfl | rfl | rfl
      · exact absurd hjw (by decide)
      · exact absurd hjw (by decide)
      · exact absurd hjw (by decide)
      · exact absurd hjw (by decide)
      · exact parseVal_stuck _ _ _ _ hskip (by decide) (by decide) (by decide)
          (by decide) (by decide) (by decide) (by decide) (by decide)
      · exact parseVal_stuck _ _ _ _ hskip (by decide) (by decide) (by decide)
          (by decide) (by decide) (by decide) (by decide) (by decide)
      · exact parseVal_stuck _ _ _ _ hskip (by decide) (by decide) (by decide)
          (by decide) (by decide) (by decide) (by decide) (by decide)
      · exact parseVal_stuck _ _ _ _ hskip (by decide) (by decide) (by decide)
          (by decide) (by decide) (by decide) (by decide) (by decide)
      · exact parseVal_stuck _ _ _ _ hskip (by decide) (by decide) (by decide)
          (by decide) (by decide) (by decide) (by decide) (by decide)
      · exact parseVal_stuck _ _ _ _ hskip (by decide) (by decide) (by decide)
          (by decide) (by decide) (by decide) (by decide) (by decide)
  simp [jsonParse, hv]

/-- A line that parses successfully is not whitespace-only. -/
theorem parse_some_not_allWs {l : List Char} {j : Json}
    (hp : jsonParse l = some j) : l.all isJsWsChar = false := by
  cases hb : l.all isJsWsChar with
  | false => rfl
  | true => rw [jsonParse_allWs l hb] at hp; exact Option.noConfusion hp

/-! ### Per-line behavior of the decoders -/

/-- The SSE decoder terminates on `data: [DONE]` regardless of the state. -/
theorem sse_done_terminates (st : DecSt) :
    (processSSELine st "data: [DONE]".data).terminated = true := by
  by_cases ht : st.terminated = true
  · simp [processSSELine, ht]
  · have h1 : ("data: [DONE]".data.all isJsWsChar) = false := by decide
    have h2 : dataPayload? "data: [DONE]".data = some "[DONE]".data := by decide
    simp [processSSELine, ht, h1, h2]

/-- A successful field access implies the base value is an object. -/
theorem jsField_some_obj {o : Option Json} {k : String} {v : Json}
    (h : jsField o k = some v) : ∃ fs, o = some (Json.obj fs) := by
  match o with
  | none => exact Option.noConfusion h
  | some Json.null => exact Option.noConfusion h
  | some (Json.bool b) => exact Option.noConfusion h
  | some (Json.num m e) => exact Option.noConfusion h
  | some (Json.str s) => exact Option.noConfusion h
  | some (Json.arr xs) => exact Option.noConfusion h
  | some (Json.obj fs) => exact ⟨fs, rfl⟩

/-- The NDJSON decoder terminates on any parsed record whose `done` flag is
truthy, provided the record's message content is within the wire contract
(absent, falsy, or a string) — a truthy non-string content would make the
terminal write throw before the `done` check. -/
theorem ollama_done_terminates (st : DecSt) (l : List Char) (j : Json)
    (hp : jsonParse l = some j)
    (hd : jsTruthy (jsField (some j) "done") = true)
    (hwire : ∀ v, jsField (jsField (some j) "message") "content" = some v →
      jsTruthy (some v) = true → ∃ s, v = Json.str s) :
    (processOllamaLine st l).terminated = true := by
  by_cases ht : st.terminated = true
  · simp [processOllamaLine, ht]
  · have hws := parse_some_not_allWs hp
    cases hc : jsField (jsField (some j) "message") "content" with
    | none =>
      have h0 : jsTruthy (none : Option Json) = false := rfl
      simp [processOllamaLine, ht, hws, hp, hc, h0, hd]
    | some v =>
      cases hvb : jsTruthy (some v) with
      | false => simp [processOllamaLine, ht, hws, hp, hc, hvb, hd]
      | true =>
        obtain ⟨s, rfl⟩ := hwire v hc hvb
        obtain ⟨fs, hmsg⟩ := jsField_some_obj hc
        have hmt : jsTruthy (jsField (some j) "message") = true := by
          rw [hmsg]; rfl
        simp [processOllamaLine, ht, hws, hp, hc, hvb, hmt, hd]

/-- A `data: `-prefixed line whose payload is not `[DONE]` and fails to
parse is a no-op for the SSE decoder. -/
theorem sse_bad_skip (st : DecSt) (bad payload : List Char)
    (hdp : dataPayload? bad = some payload) (hne : payload ≠ "[DONE]".data)
    (hparse : jsonParse payload = none) : processSSELine st bad = st := by
  by_cases ht : st.terminated = true
  · simp [processSSELine, ht]
  · cases hb : bad.all isJsWsChar <;>
      simp [processSSELine, ht, hb, hdp, if_neg hne, hparse]

/-- A line that fails to parse is a no-op for the NDJSON decoder. -/
theorem ollama_bad_skip (st : DecSt) (bad : List Char)
    (hparse : jsonParse bad = none) : processOllamaLine st bad = st := by
  by_cases ht : st.terminated = true
  · simp [processOllamaLine, ht]
  · cases hb : bad.all isJsWsChar <;>
      simp [processOllamaLine, ht, hb, hparse]

/-- Removing a line that is a no-op for the processor does not change a run. -/
theorem runLines_splice (pl : DecSt → List Char → DecSt) (bad : List Char)
    (hid : ∀ st, pl st bad = st) (st0 : DecSt) (pre post : List (List Char)) :
    runLines pl st0 (pre ++ bad :: post) = runLines pl st0 (pre ++ post) := by
  unfold runLines
  rw [List.foldl_append, List.foldl_append, List.foldl_cons, hid]

/-- Appending lines after a line on which every state terminates does not
change a run (the decoder has returned). -/
theorem runLines_stop (pl : DecSt → List Char → DecSt) (hpl : GuardPl pl)
    (stop : List Char) (hstop : ∀ st, (pl st stop).terminated = true)
    (st0 : DecSt) (ls1 ls2 : List (List Char)) :
    runLines pl st0 (ls1 ++ stop :: ls2) = runLines pl st0 (ls1 ++ [stop]) := by
  unfold runLines
  rw [List.foldl_append, List.foldl_append, List.foldl_cons, List.foldl_cons,
    List.foldl_nil]
  exact runLines_term hpl (hstop _) ls2

/-- **C3.** Termination idempotence: once the termination signal is observed
(a `data: [DONE]` record for the cloud decoder; a parsed record with a
truthy `done` flag — its content being within the wire contract — for the
local-daemon decoder), decoding stops: the remaining already-buffered
complete lines contribute no further fragments and no accumulation. -/
theorem termination_idempotence :
    (∀ (ls1 ls2 : List (List Char)),
      runLines processSSELine initDec (ls1 ++ "data: [DONE]".data :: ls2) =
        runLines processSSELine initDec (ls1 ++ ["data: [DONE]".data])) ∧
    (∀ (l : List Char) (j : Json), jsonParse l = some j →
      jsTruthy (jsField (some j) "done") = true →
      (∀ v, jsField (jsField (some j) "message") "content" = some v →
        jsTruthy (some v) = true → ∃ s, v = Json.str s) →
      ∀ (ls1 ls2 : List (List Char)),
        runLines processOllamaLine initDec (ls1 ++ l :: ls2) =
          runLines processOllamaLine initDec (ls1 ++ [l])) := by
  constructor
  · intro ls1 ls2
    exact runLines_stop _ sse_guard _ sse_done_terminates initDec ls1 ls2
  · intro l j hp hd hwire ls1 ls2
    exact runLines_stop _ ollama_guard _
      (fun st => ollama_done_terminates st l j hp hd hwire) initDec ls1 ls2

/-- Witness for C3: a concrete NDJSON stream where two well-formed lines
follow the `done` record, and decoding ignores them. -/
theorem termination_idempotence_witness :
    runLines processOllamaLine initDec
        ([] ++ "\x7b\"done\":true\x7d".data ::
          ["\x7b\"message\":\x7b\"content\":\"X\"\x7d,\"done\":false\x7d".data]) =
      runLines processOllamaLine initDec ([] ++ ["\x7b\"done\":true\x7d".data]) := by
  refine termination_idempotence.2 _ (Json.obj [("done", Json.bool true)]) ?_ ?_ ?_ [] _
  · rfl
  · rfl
  · intro v h
    rw [show jsField (jsField (some (Json.obj [("done", Json.bool true)]))
      "message") "content" = none from rfl] at h
    exact absurd h (by simp)

/-- **C4.** Malformed-record tolerance: inserting one line whose payload is
invalid JSON (for the cloud decoder: a `data: `-prefixed line whose payload
is not the `[DONE]` sentinel and fails to parse; for the local daemon: any
line that fails to parse) into a line sequence leaves the decoder run —
fragments, accumulated response and termination — exactly as without it;
the bad record is silently skipped and decoding continues. -/
theorem malformed_record_tolerance :
    (∀ (bad payload : List Char), dataPayload? bad = some payload →
      payload ≠ "[DONE]".data → jsonParse payload = none →
      ∀ (pre post : List (List Char)),
        runLines processSSELine initDec (pre ++ bad :: post) =
          runLines processSSELine initDec (pre ++ post)) ∧
    (∀ bad : List Char, jsonParse bad = none →
      ∀ (pre post : List (List Char)),
        runLines processOllamaLine initDec (pre ++ bad :: post) =
          runLines processOllamaLine initDec (pre ++ post)) := by
  constructor
  · intro bad payload hdp hne hparse pre post
    exact runLines_splice _ _ (fun st => sse_bad_skip st bad payload hdp hne hparse)
      initDec pre post
  · intro bad hparse pre post
    exact runLines_splice _ _ (fun st => ollama_bad_skip st bad hparse)
      initDec pre post

/-- Witness for C4: a concrete SSE stream with an invalid-JSON record in the
middle decodes exactly as the stream without it. -/
theorem malformed_record_tolerance_witness :
    runLines processSSELine initDec
        (["data: \x7b\"choices\":[\x7b\"delta\":\x7b\"content\":\"Hi\"\x7d\x7d]\x7d".data] ++
          "data: \x7boops".data ::
          ["data: \x7b\"choices\":[\x7b\"delta\":\x7b\"content\":\"!\"\x7d\x7d]\x7d".data]) =
      runLines processSSELine initDec
        (["data: \x7b\"choices\":[\x7b\"delta\":\x7b\"content\":\"Hi\"\x7d\x7d]\x7d".data] ++
          ["data: \x7b\"choices\":[\x7b\"delta\":\x7b\"content\":\"!\"\x7d\x7d]\x7d".data]) := by
  exact malformed_record_tolerance.1 "data: \x7boops".data "\x7boops".data rfl
    (by decide) rfl _ _

/-- **C8.** The local-daemon decoder does not drop the final record's
content: a parsed record carrying a non-empty string message content and a
truthy `done` flag first yields and accumulates that fragment and only then
terminates. -/
theorem ollama_final_record (st : DecSt) (l : List Char) (j : Json) (s : String)
    (hterm : st.terminated = false)
    (hp : jsonParse l = some j)
    (hc : jsField (jsField (some j) "message") "content" = some (Json.str s))
    (hs : s ≠ "")
    (hd : jsTruthy (jsField (some j) "done") = true) :
    processOllamaLine st l = ⟨st.frags ++ [s], st.full ++ s, true⟩ := by
  have hws := parse_some_not_allWs hp
  obtain ⟨fs, hmsg⟩ := jsField_some_obj hc
  have hmt : jsTruthy (jsField (some j) "message") = true := by
    rw [hmsg]; rfl
  have hct : jsTruthy (jsField (jsField (some j) "message") "content") = true := by
    rw [hc]
    simp [jsTruthy, hs]
  simp [processOllamaLine, hterm, hws, hp, hc, hmt, hct, hd]
  rw [hc] at hct
  exact hct

/-- Witness for C8: the concrete final record `{"message":{"content":"Hi"},
"done":true}` yields `"Hi"` and terminates. -/
theorem ollama_final_record_witness :
    processOllamaLine initDec
        "\x7b\"message\":\x7b\"content\":\"Hi\"\x7d,\"done\":true\x7d".data =
      ⟨[("Hi" : String)], "Hi", true⟩ :=
  ollama_final_record initDec _
    (Json.obj [("message", Json.obj [("content", Json.str "Hi")]),
      ("done", Json.bool true)]) "Hi" rfl rfl rfl (by decide) rfl

/-! ### Timestamps

`new Date().toISOString()` and `new Date(s)` are platform primitives.  They
are modelled by the decimal representation of the epoch-millisecond clock
(`isoOfTime`) and its inverse (`timeOfIso`): like the real ISO-8601
encoding, this is injective and order-faithful, which is all any claim
uses — no claim inspects the timestamp text itself. -/

/-- Decimal digit character. -/
def digitChar (n : Nat) : Char := Char.ofNat ('0'.toNat + n)

/-- Big-endian decimal digits of a natural number. -/
def natDigits (n : Nat) : List Char :=
  if _h : n < 10 then [digitChar n]
  else natDigits (n / 10) ++ [digitChar (n % 10)]
decreasing_by exact Nat.div_lt_self (by omega) (by omega)

/-- Model of `Date.prototype.toISOString` at epoch-millisecond `t`. -/
def isoOfTime (t : Nat) : String := String.mk (natDigits t)

/-- Model of `new Date(s).getTime()` on a stored timestamp string; `none`
is `NaN`. -/
def timeOfIso (s : String) : Option Nat :=
  if s.data ≠ [] ∧ s.data.all Char.isDigit then some (digitsToNat 0 s.data)
  else none

theorem digitsToNat_nil (a : Nat) : digitsToNat a [] = a := rfl

theorem digitsToNat_cons (a : Nat) (c : Char) (cs : List Char) :
    digitsToNat a (c :: cs) = digitsToNat (a * 10 + digitVal c) cs := rfl

theorem digitsToNat_append (acc : Nat) (ds es : List Char) :
    digitsToNat acc (ds ++ es) = digitsToNat (digitsToNat acc ds) es := by
  induction ds generalizing acc with
  | nil => rfl
  | cons d ds ih => rw [List.cons_append, digitsToNat_cons, digitsToNat_cons, ih]

theorem digitVal_digitChar {n : Nat} (h : n < 10) : digitVal (digitChar n) = n := by
  interval_cases n <;> decide

theorem digitChar_isDigit {n : Nat} (h : n < 10) : (digitChar n).isDigit = true := by
  interval_cases n <;> decide

theorem digitsToNat_natDigits : ∀ n acc,
    digitsToNat acc (natDigits n) = acc * 10 ^ (natDigits n).length + n := by
  intro n
  induction n using Nat.strong_induction_on with
  | _ n ih =>
    intro acc
    by_cases h : n < 10
    · rw [natDigits, dif_pos h, digitsToNat_cons, digitsToNat_nil,
        digitVal_digitChar h]
      simp
    · rw [natDigits, dif_neg h, digitsToNat_append,
        ih (n / 10) (Nat.div_lt_self (by omega) (by omega)) acc,
        digitsToNat_cons, digitsToNat_nil,
        digitVal_digitChar (Nat.mod_lt n (by omega))]
      simp only [List.length_append, List.length_cons, List.length_nil,
        Nat.zero_add]
      rw [pow_succ, Nat.add_mul, ← Nat.mul_assoc]
      omega

theorem natDigits_all_digits : ∀ n, (natDigits n).all Char.isDigit = true := by
  intro n
  induction n using Nat.strong_induction_on with
  | _ n ih =>
    by_cases h : n < 10
    · rw [natDigits, dif_pos h]
      simp [digitChar_isDigit h]
    · rw [natDigits, dif_neg h]
      simp only [List.all_append, Bool.and_eq_true]
      exact ⟨ih (n / 10) (Nat.div_lt_self (by omega) (by omega)),
        by simp [digitChar_isDigit (Nat.mod_lt n (by omega))]⟩

theorem natDigits_ne_nil (n : Nat) : natDigits n ≠ [] := by
  by_cases h : n < 10
  · rw [natDigits, dif_pos h]; simp
  · rw [natDigits, dif_neg h]; simp

/-- The timestamp model is a round trip. -/
theorem timeOfIso_isoOfTime (t : Nat) : timeOfIso (isoOfTime t) = some t := by
  unfold timeOfIso isoOfTime
  rw [if_pos ⟨natDigits_ne_nil t, natDigits_all_digits t⟩, digitsToNat_natDigits t 0]
  simp

/-! ### `JSON.stringify(·, null, 2)` printer -/

/-- Lowercase hexadecimal digit. -/
def hexDigit (n : Nat) : Char :=
  if n < 10 then Char.ofNat ('0'.toNat + n) else Char.ofNat ('a'.toNat + n - 10)

/-- `JSON.stringify` escaping of one string character. -/
def escCharJs (c : Char) : List Char :=
  if c = '"' then ['\\', '"']
  else if c = '\\' then ['\\', '\\']
  else if c = Char.ofNat 8 then ['\\', 'b']
  else if c = Char.ofNat 9 then ['\\', 't']
  else if c = '\n' then ['\\', 'n']
  else if c = Char.ofNat 12 then ['\\', 'f']
  else if c = Char.ofNat 13 then ['\\', 'r']
  else if c.toNat < 32 then
    ['\\', 'u', '0', '0', hexDigit (c.toNat / 16), hexDigit (c.toNat % 16)]
  else [c]

/-- Escape every character of a string body. -/
def escList : List Char → List Char
  | [] => []
  | c :: cs => escCharJs c ++ escList cs

/-- A JSON string literal with quotes. -/
def escStr (s : String) : List Char := '"' :: (escList s.data ++ ['"'])

/-- Indentation. -/
def spaces (n : Nat) : List Char := List.replicate n ' '

mutual

/-- `JSON.stringify(v, null, 2)` at nesting indentation `ind`.  (A number is
printed in mantissa-exponent form denoting the same value; `JSON.stringify`
prints the shortest decimal — the records this program writes contain no
numbers, so only the parse of the text matters, not its exact bytes.) -/
def stringifyJson : Nat → Json → List Char
  | _, Json.null => "null".data
  | _, Json.bool true => "true".data
  | _, Json.bool false => "false".data
  | _, Json.num m e =>
    (Int.repr m).data ++ (if e = 0 then [] else 'e' :: (Int.repr e).data)
  | _, Json.str s => escStr s
  | _, Json.arr [] => "[]".data
  | ind, Json.arr (x :: xs) =>
    '[' :: '\n' :: (spaces (ind + 2) ++ stringifyElems (ind + 2) x xs ++
      ('\n' :: spaces ind ++ [']']))
  | _, Json.obj [] => "\x7b\x7d".data
  | ind, Json.obj (f :: fs) =>
    '\x7b' :: '\n' :: (spaces (ind + 2) ++ stringifyFields (ind + 2) f fs ++
      ('\n' :: spaces ind ++ ['\x7d']))
termination_by _ j => sizeOf j
decreasing_by all_goals (simp <;> omega)

/-- The comma-newline separated elements of a non-empty array. -/
def stringifyElems : Nat → Json → List Json → List Char
  | ind, x, [] => stringifyJson ind x
  | ind, x, y :: ys =>
    stringifyJson ind x ++ (',' :: '\n' :: spaces ind) ++ stringifyElems ind y ys
termination_by _ x xs => 1 + sizeOf x + sizeOf xs
decreasing_by all_goals (simp <;> omega)

/-- The comma-newline separated members of a non-empty object. -/
def stringifyFields : Nat → (String × Json) → List (String × Json) → List Char
  | ind, (k, v), [] => escStr k ++ (':' :: ' ' :: stringifyJson ind v)
  | ind, (k, v), f :: fs =>
    escStr k ++ (':' :: ' ' :: stringifyJson ind v) ++
      (',' :: '\n' :: spaces ind) ++ stringifyFields ind f fs
termination_by _ f fs => 1 + sizeOf f + sizeOf fs
decreasing_by all_goals (simp <;> omega)

end

/-! ### Data model of the context store -/

/-- A conversation message (spec §3: role and content strings). -/
structure Message where
  role : String
  content : String
deriving Repr, DecidableEq

/-- The JSON value of one message object literal `{ role, content }`. -/
def msgJson (m : Message) : Json :=
  Json.obj [("role", Json.str m.role), ("content", Json.str m.content)]

/-- The context record object built by `saveContext` (insertion order
`name`, `messages`, `createdAt`, `updatedAt`); a `createdAt` that is
`undefined` is omitted by `JSON.stringify`. -/
def recordJson (name : String) (messages : List Message)
    (createdAt : Option Json) (updatedAt : String) : Json :=
  Json.obj ([("name", Json.str name),
    ("messages", Json.arr (messages.map msgJson))] ++
    (match createdAt with
     | some c => [("createdAt", c)]
     | none => []) ++
    [("updatedAt", Json.str updatedAt)])

/-- JavaScript property access `x.k` on a defined value: `none` models a
thrown `TypeError` (access on `null`), `some none` is `undefined`. -/
def jsGetProp : Json → String → Option (Option Json)
  | Json.null, _ => none
  | Json.obj fs, k => some (lookupLast fs k)
  | Json.arr xs, k =>
    if k = "length" then some (some (Json.num (xs.length : Int) 0)) else some none
  | Json.str s, k =>
    if k = "length" then some (some (Json.num (s.length : Int) 0)) else some none
  | _, _ => some none

/-- The contexts directory: one entry per context name, holding the raw
bytes of `<name>.json` in directory order. -/
abbrev Store := List (String × List Char)

/-- `fs.existsSync` + `fs.readFileSync` for a context file. -/
def storeGet : Store → String → Option (List Char)
  | [], _ => none
  | (n, c) :: rest, k => if n = k then some c else storeGet rest k

/-- `fs.writeFileSync`: replace the entry in place, or append a new file. -/
def storeSet : Store → String → List Char → Store
  | [], k, v => [(k, v)]
  | (n, c) :: rest, k, v =>
    if n = k then (k, v) :: rest else (n, c) :: storeSet rest k v

/-- `saveContext` (src/context.js lines 9–31): re-reads an existing record's
`createdAt` (a parse failure or a `null` record throws inside the guarded
block, reporting failure before any write), stamps a fresh `updatedAt`, and
writes the full record, replacing prior content.  The directory-creation
step is the store itself.  Both `new Date()` calls of one invocation are
modelled as the same instant `now`. -/
def saveContext (store : Store) (now : Nat) (name : String)
    (messages : List Message) : Bool × Store :=
  match storeGet store name with
  | some old =>
    (match jsonParse old with
     | none => (false, store)
     | some parsed =>
       match jsGetProp parsed "createdAt" with
       | none => (false, store)
       | some createdAt =>
         (true, storeSet store name
           (stringifyJson 0 (recordJson name messages createdAt (isoOfTime now)))))
  | none =>
    (true, storeSet store name
      (stringifyJson 0 (recordJson name messages
        (some (Json.str (isoOfTime now))) (isoOfTime now))))

/-- `loadContext` (src/context.js lines 33–43): the parsed record, or `null`
on absence or parse failure. -/
def loadContext (store : Store) (name : String) : Option Json :=
  match storeGet store name with
  | none => none
  | some content =>
    match jsonParse content with
    | none => none
    | some j => some j

/-- One listing row (`name`, `messageCount`, `lastUpdated`, `created` as the
JavaScript values read off the record). -/
structure Summary where
  name : Option Json
  messageCount : Option Json
  lastUpdated : Option Json
  created : Option Json
deriving Repr

/-- Build one row from a parsed record; `none` models a thrown property
access (`context.messages.length` on a record without a messages value). -/
def summaryOf (j : Json) : Option Summary :=
  match jsGetProp j "name" with
  | none => none
  | some nm =>
    match jsGetProp j "messages" with
    | none => none
    | some msgsOpt =>
      match msgsOpt with
      | none => none
      | some mv =>
        match jsGetProp mv "length" with
        | none => none
        | some len =>
          match jsGetProp j "updatedAt", jsGetProp j "createdAt" with
          | some lu, some cr => some ⟨nm, len, lu, cr⟩
          | _, _ => none

/-- The rows of all context files in directory order; any parse failure or
thrown access aborts the whole listing (the `try` wraps the loop). -/
def summariesOf : Store → Option (List Summary)
  | [] => some []
  | (_, content) :: rest =>
    match jsonParse content with
    | none => none
    | some j =>
      match summaryOf j with
      | none => none
      | some s =>
        match summariesOf rest with
        | none => none
        | some ss =>
          some (s :: ss)

/-- `new Date(v).getTime()` on a record field value; `none` is `NaN`
(object/array coercion and fractional milliseconds are not modelled beyond
`NaN`). -/
def jsDateMs : Option Json → Option Int
  | some (Json.str s) => (timeOfIso s).map (fun n => (n : Int))
  | some (Json.num m e) => if 0 ≤ e then some (m * (10 : Int) ^ e.toNat) else none
  | some Json.null => some 0
  | some (Json.bool b) => some (if b then 1 else 0)
  | _ => none

/-- The sort comparator `(a, b) => new Date(b.lastUpdated) -
new Date(a.lastUpdated)`; a `NaN` result is implementation-defined and
modelled as 0. -/
def cmpMs (a b : Summary) : Int :=
  match jsDateMs b.lastUpdated, jsDateMs a.lastUpdated with
  | some x, some y => x - y
  | _, _ => 0

/-- Stable insertion (`Array.prototype.sort` is stable): an element moves
before another only when the comparator strictly orders it earlier. -/
def insertSorted (x : Summary) : List Summary → List Summary
  | [] => [x]
  | y :: ys => if cmpMs y x < 0 then y :: insertSorted x ys else x :: y :: ys

/-- Stable sort by the comparator. -/
def sortSummaries : List Summary → List Summary
  | [] => []
  | x :: xs => insertSorted x (sortSummaries xs)

/-- `listContexts` (src/context.js lines 45–70): summaries of every stored
record, sorted most-recently-updated first; any error yields `[]`. -/
def listContexts (store : Store) : List Summary :=
  match summariesOf store with
  | none => []
  | some ss => sortSummaries ss

/-! ### The printer-parser round trip

`JSON.parse(JSON.stringify(x, null, 2))` recovers `x` for every value made
of strings, booleans, nulls, arrays and objects — which covers every record
this program writes.  (For numbers the printed text still denotes the same
value, but the program's records contain none.) -/

/-- JSON values with no numeric leaves. -/
inductive NoNumJ : Json → Prop where
  | null : NoNumJ Json.null
  | bool (b : Bool) : NoNumJ (Json.bool b)
  | str (s : String) : NoNumJ (Json.str s)
  | arr (xs : List Json) : (∀ x ∈ xs, NoNumJ x) → NoNumJ (Json.arr xs)
  | obj (fs : List (String × Json)) : (∀ f ∈ fs, NoNumJ f.2) →
      NoNumJ (Json.obj fs)

mutual

/-- Fuel sufficient for `parseVal` on the printed form of a value. -/
def jfuel : Json → Nat
  | Json.arr xs => 1 + jfuelL xs
  | Json.obj fs => 1 + jfuelF fs
  | _ => 1
termination_by j => sizeOf j
decreasing_by all_goals (simp <;> omega)

/-- Fuel sufficient for `parseElems` on printed array elements. -/
def jfuelL : List Json → Nat
  | [] => 1
  | x :: xs => 1 + jfuel x + jfuelL xs
termination_by xs => sizeOf xs
decreasing_by all_goals (simp <;> omega)

/-- Fuel sufficient for `parseMembers` on printed object members. -/
def jfuelF : List (String × Json) → Nat
  | [] => 1
  | (_, v) :: fs => 1 + jfuel v + jfuelF fs
termination_by fs => sizeOf fs
decreasing_by all_goals (simp <;> omega)

end

theorem hexVal_hexDigit {n : Nat} (h : n < 16) : hexVal (hexDigit n) = some n := by
  interval_cases n <;> decide

/-- Escaping never shortens a string. -/
theorem escList_length_ge : ∀ cs : List Char, cs.length ≤ (escList cs).length := by
  intro cs
  induction cs with
  | nil => simp [escList]
  | cons c cs ih =>
    have h1 : 1 ≤ (escCharJs c).length := by
      unfold escCharJs
      repeat' split
      all_goals simp
    simp only [escList, List.length_append, List.length_cons]
    omega

/-- The string-body parser undoes the printer's escaping, given fuel past
the unescaped length. -/
theorem parseStr_escape : ∀ (cs : List Char) (f : Nat) (rest : List Char),
    cs.length < f →
    parseStrAux f (escList cs ++ ('"' :: rest)) = some (cs, rest) := by
  intro cs
  induction cs with
  | nil =>
    intro f rest hf
    match f, hf with
    | Nat.succ f', _ => rfl
  | cons c cs ih =>
    intro f rest hf
    match f, hf with
    | Nat.succ f', hf' =>
      have h := ih f' rest (by simp only [List.length_cons] at hf'; omega)
      show parseStrAux (Nat.succ f') ((escCharJs c ++ escList cs) ++ ('"' :: rest)) = _
      rw [List.append_assoc]
      by_cases h1 : c = '"'
      · subst h1
        simp +decide [escCharJs, List.cons_append, List.nil_append,
          parseStrAux, escChar, h]
      · by_cases h2 : c = '\\'
        · subst h2
          simp +decide [escCharJs, List.cons_append,
            List.nil_append, parseStrAux, escChar, h]
        · by_cases h3 : c = Char.ofNat 8
          · subst h3
            simp +decide [escCharJs, List.cons_append,
              List.nil_append, parseStrAux, escChar, h]
          · by_cases h4 : c = Char.ofNat 9
            · subst h4
              simp +decide [escCharJs, List.cons_append,
                List.nil_append, parseStrAux, escChar, h]
            · by_cases h5 : c = '\n'
              · subst h5
                simp +decide [escCharJs, List.cons_append,
                  List.nil_append, parseStrAux, escChar, h]
              · by_cases h6 : c = Char.ofNat 12
                · subst h6
                  simp +decide [escCharJs,
                    List.cons_append, List.nil_append, parseStrAux, escChar, h]
                · by_cases h7 : c = Char.ofNat 13
                  · subst h7
                    simp +decide [escCharJs,
                      List.cons_append, List.nil_append, parseStrAux, escChar, h]
                  · by_cases h8 : c.toNat < 32
                    · have hhi : hexVal (hexDigit (c.toNat / 16)) =
                          some (c.toNat / 16) := hexVal_hexDigit (by omega)
                      have hlo : hexVal (hexDigit (c.toNat % 16)) =
                          some (c.toNat % 16) := hexVal_hexDigit (by omega)
                      have hz : hexVal '0' = some 0 := by decide
                      simp only [escCharJs, h1, h2, h3, h4, h5, h6, h7, h8,
                        if_true, if_false, ite_false, ite_true,
                        List.cons_append, List.nil_append]
                      simp +decide [parseStrAux, hz, hhi, hlo, h]
                      rw [show c.toNat / 16 * 16 + c.toNat % 16 = c.toNat from
                        by omega, Char.ofNat_toNat]
                    · simp only [escCharJs, h1, h2, h3, h4, h5, h6, h7, h8,
                        if_true, if_false, ite_false, ite_true,
                        List.cons_append, List.nil_append]
                      simp [parseStrAux, h1, h2, h8, h]

theorem jfuel_pos (j : Json) : 1 ≤ jfuel j := by
  cases j <;> simp [jfuel]

theorem jfuelL_pos (xs : List Json) : 1 ≤ jfuelL xs := by
  cases xs with
  | nil => simp [jfuelL]
  | cons x xs => simp [jfuelL]; omega

theorem jfuelF_pos (fs : List (String × Json)) : 1 ≤ jfuelF fs := by
  cases fs with
  | nil => simp [jfuelF]
  | cons f fs =>
    obtain ⟨k, v⟩ := f
    simp [jfuelF]
    omega

theorem skipWs_cons_ws {c : Char} (h : isJsonWs c = true) (z : List Char) :
    skipWs (c :: z) = skipWs z := by
  simp [skipWs, h]

theorem skipWs_cons_not {c : Char} (h : isJsonWs c = false) (z : List Char) :
    skipWs (c :: z) = c :: z := by
  simp [skipWs, h]

theorem skipWs_spaces (n : Nat) (z : List Char) :
    skipWs (spaces n ++ z) = skipWs z := by
  induction n with
  | zero => rfl
  | succ n ih =>
    rw [spaces, List.replicate_succ, List.cons_append,
      skipWs_cons_ws (by decide), ← spaces, ih]

/-- The parser reads its input only through `skipWs`. -/
theorem parseVal_ws (f : Nat) {a b : List Char} (hab : skipWs a = skipWs b) :
    parseVal f a = parseVal f b := by
  cases f with
  | zero => rfl
  | succ f => simp only [parseVal, hab]

theorem parseElems_ws (f : Nat) {a b : List Char} (hab : skipWs a = skipWs b) :
    parseElems f a = parseElems f b := by
  cases f with
  | zero => rfl
  | succ f => simp only [parseElems, parseVal_ws f hab]

theorem parseMembers_ws (f : Nat) {a b : List Char} (hab : skipWs a = skipWs b) :
    parseMembers f a = parseMembers f b := by
  cases f with
  | zero => rfl
  | succ f => simp only [parseMembers, hab]

/-- The printed form of a (no-number) value starts with a non-whitespace
character that is not a closing bracket. -/
theorem stringify_head (ind : Nat) (j : Json) (hn : NoNumJ j) :
    ∃ c t, stringifyJson ind j = c :: t ∧ isJsonWs c = false ∧ c ≠ ']' := by
  cases j with
  | null =>
    exact ⟨'n', ['u', 'l', 'l'], by simp only [stringifyJson],
      by decide, by decide⟩
  | bool b =>
    cases b with
    | true =>
      exact ⟨'t', ['r', 'u', 'e'], by simp only [stringifyJson],
        by decide, by decide⟩
    | false =>
      exact ⟨'f', ['a', 'l', 's', 'e'], by simp only [stringifyJson],
        by decide, by decide⟩
  | num m e => cases hn
  | str s =>
    exact ⟨'"', escList s.data ++ ['"'],
      by simp only [stringifyJson]; rfl, by decide, by decide⟩
  | arr xs =>
    cases xs with
    | nil =>
      exact ⟨'[', [']'], by simp only [stringifyJson],
        by decide, by decide⟩
    | cons x xs =>
      exact ⟨'[', '\n' :: (spaces (ind + 2) ++ stringifyElems (ind + 2) x xs ++
        ('\n' :: spaces ind ++ [']'])), by simp only [stringifyJson],
        by decide, by decide⟩
  | obj fs =>
    cases fs with
    | nil =>
      exact ⟨'\x7b', ['\x7d'], by simp only [stringifyJson],
        by decide, by decide⟩
    | cons f fs =>
      exact ⟨'\x7b', '\n' :: (spaces (ind + 2) ++
        stringifyFields (ind + 2) f fs ++ ('\n' :: spaces ind ++ ['\x7d'])),
        by simp only [stringifyJson], by decide, by decide⟩

/-- The printed elements of an array start like the printed first element. -/
theorem stringifyElems_head (i : Nat) (x : Json) (xs : List Json)
    (hn : NoNumJ x) :
    ∃ c t, stringifyElems i x xs = c :: t ∧ isJsonWs c = false ∧ c ≠ ']' := by
  obtain ⟨c, t, hx, hws, hne⟩ := stringify_head i x hn
  cases xs with
  | nil => exact ⟨c, t, by simp [stringifyElems, hx], hws, hne⟩
  | cons y ys =>
    refine ⟨c, t ++ ((',' :: '\n' :: spaces i) ++ stringifyElems i y ys), ?_,
      hws, hne⟩
    simp [stringifyElems, hx]

theorem jfuelL_cons (x : Json) (xs : List Json) :
    jfuelL (x :: xs) = 1 + jfuel x + jfuelL xs := by
  simp [jfuelL]

theorem jfuelF_cons (k : String) (v : Json) (fs : List (String × Json)) :
    jfuelF ((k, v) :: fs) = 1 + jfuel v + jfuelF fs := by
  simp [jfuelF]

theorem jfuel_mem_lt {y : Json} : ∀ {xs : List Json}, y ∈ xs →
    jfuel y < jfuelL xs := by
  intro xs
  induction xs with
  | nil => intro h; cases h
  | cons x xs ih =>
    intro h
    rcases List.mem_cons.mp h with rfl | h'
    · have := jfuelL_pos xs
      rw [jfuelL_cons]
      omega
    · have := ih h'
      have := jfuel_pos x
      rw [jfuelL_cons]
      omega

theorem jfuelF_mem_lt {q : String × Json} : ∀ {fs : List (String × Json)},
    q ∈ fs → jfuel q.2 < jfuelF fs := by
  intro fs
  induction fs with
  | nil => intro h; cases h
  | cons f fs ih =>
    obtain ⟨k, v⟩ := f
    intro h
    rcases List.mem_cons.mp h with rfl | h'
    · have := jfuelF_pos fs
      rw [jfuelF_cons]
      show jfuel v < 1 + jfuel v + jfuelF fs
      omega
    · have := ih h'
      have := jfuel_pos v
      rw [jfuelF_cons]
      omega

/-- The central round trip: the parser recovers a printed (no-number) value
exactly, leaving the continuation untouched, for any sufficient fuel. -/
theorem parse_stringify : ∀ (N : Nat) (j : Json), jfuel j ≤ N → NoNumJ j →
    ∀ (ind f : Nat) (rest : List Char), jfuel j ≤ f →
    parseVal f (stringifyJson ind j ++ rest) = some (j, rest) := by
  intro N
  induction N using Nat.strong_induction_on with
  | _ N IH =>
    intro j hjN hn ind f rest hf
    obtain ⟨f', rfl⟩ : ∃ f', f = f' + 1 :=
      ⟨f - 1, by have := jfuel_pos j; omega⟩
    cases j with
    | num m e => cases hn
    | null =>
      rw [show stringifyJson ind Json.null = 'n' :: 'u' :: 'l' :: 'l' :: []
        from by simp only [stringifyJson]]
      rfl
    | bool b =>
      cases b with
      | true =>
        rw [show stringifyJson ind (Json.bool true) =
          't' :: 'r' :: 'u' :: 'e' :: [] from by simp only [stringifyJson]]
        rfl
      | false =>
        rw [show stringifyJson ind (Json.bool false) =
          'f' :: 'a' :: 'l' :: 's' :: 'e' :: [] from by
          simp only [stringifyJson]]
        rfl
    | str s =>
      rw [show stringifyJson ind (Json.str s) =
        '"' :: (escList s.data ++ ('"' :: [])) from by
        simp only [stringifyJson]; rfl]
      rw [List.cons_append, List.append_assoc]
      have hlen : s.data.length < (escList s.data ++ ('"' :: rest)).length + 1 := by
        have := escList_length_ge s.data
        simp only [List.length_append, List.length_cons]
        omega
      have hps := parseStr_escape s.data
        ((escList s.data ++ ('"' :: rest)).length + 1) rest hlen
      simp only [List.length_append, List.length_cons] at hps
      simp +decide [parseVal,
        skipWs_cons_not (show isJsonWs '"' = false from by decide),
        List.cons_append, List.nil_append, hps]
    | arr xs =>
      cases xs with
      | nil =>
        rw [show stringifyJson ind (Json.arr []) = '[' :: ']' :: [] from by
          simp only [stringifyJson]]
        rfl
      | cons x xs =>
        have hnelts : ∀ y ∈ x :: xs, NoNumJ y := by
          cases hn with
          | arr _ h => exact h
        have hlts : ∀ y ∈ x :: xs, jfuel y < N := by
          intro y hy
          have h1 := jfuel_mem_lt hy
          have h2 : jfuel (Json.arr (x :: xs)) = 1 + jfuelL (x :: xs) := by
            simp [jfuel]
          omega
        have hf' : jfuelL (x :: xs) ≤ f' := by
          have h2 : jfuel (Json.arr (x :: xs)) = 1 + jfuelL (x :: xs) := by
            simp [jfuel]
          omega
        have elems : ∀ (xs' : List Json) (x' : Json) (g : Nat)
            (rest' : List Char), (∀ y ∈ x' :: xs', NoNumJ y) →
            (∀ y ∈ x' :: xs', jfuel y < N) → jfuelL (x' :: xs') ≤ g →
            parseElems g (stringifyElems (ind + 2) x' xs' ++
              ('\n' :: (spaces ind ++ (']' :: rest')))) =
              some (x' :: xs', rest') := by
          intro xs'
          induction xs' with
          | nil =>
            intro x' g rest' hq hlt hg
            rw [jfuelL_cons] at hg
            have h1 := jfuelL_pos ([] : List Json)
            obtain ⟨g', rfl⟩ : ∃ g', g = g' + 1 := ⟨g - 1, by omega⟩
            have hx := IH (jfuel x') (hlt x' (by simp)) x' le_rfl
              (hq x' (by simp)) (ind + 2) g'
              ('\n' :: (spaces ind ++ (']' :: rest'))) (by omega)
            simp only [stringifyElems, parseElems, hx,
              skipWs_cons_ws (show isJsonWs '\n' = true from by decide),
              skipWs_spaces,
              skipWs_cons_not (show isJsonWs ']' = false from by decide)]
            simp +decide
          | cons y ys ihe =>
            intro x' g rest' hq hlt hg
            rw [jfuelL_cons] at hg
            have h1 := jfuelL_pos (y :: ys)
            have h2 := jfuel_pos x'
            obtain ⟨g', rfl⟩ : ∃ g', g = g' + 1 := ⟨g - 1, by omega⟩
            have hx := IH (jfuel x') (hlt x' (by simp)) x' le_rfl
              (hq x' (by simp)) (ind + 2) g'
              (',' :: ('\n' :: (spaces (ind + 2) ++
                (stringifyElems (ind + 2) y ys ++
                  ('\n' :: (spaces ind ++ (']' :: rest'))))))) (by omega)
            have hshape : stringifyElems (ind + 2) x' (y :: ys) ++
                ('\n' :: (spaces ind ++ (']' :: rest'))) =
                stringifyJson (ind + 2) x' ++
                (',' :: ('\n' :: (spaces (ind + 2) ++
                  (stringifyElems (ind + 2) y ys ++
                    ('\n' :: (spaces ind ++ (']' :: rest'))))))) := by
              simp only [stringifyElems]
              simp [List.append_assoc]
            rw [hshape]
            simp only [parseElems, hx,
              skipWs_cons_not (show isJsonWs ',' = false from by decide)]
            have hws2 : skipWs ('\n' :: (spaces (ind + 2) ++
                (stringifyElems (ind + 2) y ys ++
                  ('\n' :: (spaces ind ++ (']' :: rest')))))) =
                skipWs (stringifyElems (ind + 2) y ys ++
                  ('\n' :: (spaces ind ++ (']' :: rest')))) := by
              rw [skipWs_cons_ws (by decide), skipWs_spaces]
            rw [parseElems_ws g' hws2,
              ihe y g' rest' (fun z hz => hq z (by simp at hz ⊢; tauto))
                (fun z hz => hlt z (by simp at hz ⊢; tauto)) (by omega)]
            simp +decide
        have hgoal : stringifyJson ind (Json.arr (x :: xs)) ++ rest =
            '[' :: ('\n' :: (spaces (ind + 2) ++
              (stringifyElems (ind + 2) x xs ++
                ('\n' :: (spaces ind ++ (']' :: rest)))))) := by
          simp only [stringifyJson]
          simp [List.append_assoc]
        rw [hgoal]
        obtain ⟨ce, te, hce, hwse, hnee⟩ :=
          stringifyElems_head (ind + 2) x xs (hnelts x (by simp))
        have hmain := elems xs x f' rest hnelts hlts hf'
        simp only [parseVal,
          skipWs_cons_not (show isJsonWs '[' = false from by decide),
          skipWs_cons_ws (show isJsonWs '\n' = true from by decide),
          skipWs_spaces]
        rw [show stringifyElems (ind + 2) x xs ++
            ('\n' :: (spaces ind ++ (']' :: rest))) =
            ce :: (te ++ ('\n' :: (spaces ind ++ (']' :: rest)))) from by
          rw [hce]; rfl] at hmain ⊢
        rw [skipWs_cons_not hwse]
        simp +decide [hnee, hmain]
    | obj fs =>
      cases fs with
      | nil =>
        rw [show stringifyJson ind (Json.obj []) = '\x7b' :: '\x7d' :: []
          from by simp only [stringifyJson]]
        rfl
      | cons p fs =>
        have hnflds : ∀ q ∈ p :: fs, NoNumJ q.2 := by
          cases hn with
          | obj _ h => exact h
        have hlts : ∀ q ∈ p :: fs, jfuel q.2 < N := by
          intro q hq
          have h1 := jfuelF_mem_lt hq
          have h2 : jfuel (Json.obj (p :: fs)) = 1 + jfuelF (p :: fs) := by
            simp [jfuel]
          omega
        have hf' : jfuelF (p :: fs) ≤ f' := by
          have h2 : jfuel (Json.obj (p :: fs)) = 1 + jfuelF (p :: fs) := by
            simp [jfuel]
          omega
        have mems : ∀ (fs' : List (String × Json)) (p' : String × Json)
            (g : Nat) (rest' : List Char), (∀ q ∈ p' :: fs', NoNumJ q.2) →
            (∀ q ∈ p' :: fs', jfuel q.2 < N) → jfuelF (p' :: fs') ≤ g →
            parseMembers g (stringifyFields (ind + 2) p' fs' ++
              ('\n' :: (spaces ind ++ ('\x7d' :: rest')))) =
              some (p' :: fs', rest') := by
          intro fs'
          induction fs' with
          | nil =>
            intro p' g rest' hq hlt hg
            obtain ⟨k, v⟩ := p'
            rw [jfuelF_cons] at hg
            have h1 := jfuelF_pos ([] : List (String × Json))
            obtain ⟨g', rfl⟩ : ∃ g', g = g' + 1 := ⟨g - 1, by omega⟩
            have hv := IH (jfuel v) (hlt (k, v) (by simp)) v le_rfl
              (hq (k, v) (by simp)) (ind + 2) g'
              ('\n' :: (spaces ind ++ ('\x7d' :: rest'))) (by omega)
            have hshape : stringifyFields (ind + 2) (k, v) [] ++
                ('\n' :: (spaces ind ++ ('\x7d' :: rest'))) =
                '"' :: (escList k.data ++
                  ('"' :: (':' :: (' ' :: (stringifyJson (ind + 2) v ++
                    ('\n' :: (spaces ind ++ ('\x7d' :: rest')))))))) := by
              simp only [stringifyFields, escStr]
              simp [List.append_assoc]
            rw [hshape]
            have hlen : k.data.length <
                (escList k.data ++ ('"' :: (':' :: (' ' ::
                  (stringifyJson (ind + 2) v ++
                    ('\n' :: (spaces ind ++ ('\x7d' :: rest')))))))).length
                  + 1 := by
              have := escList_length_ge k.data
              simp only [List.length_append, List.length_cons]
              omega
            have hps := parseStr_escape k.data _
              (':' :: (' ' :: (stringifyJson (ind + 2) v ++
                ('\n' :: (spaces ind ++ ('\x7d' :: rest')))))) hlen
            have hv' : parseVal g' (' ' :: (stringifyJson (ind + 2) v ++
                ('\n' :: (spaces ind ++ ('\x7d' :: rest'))))) =
                some (v, '\n' :: (spaces ind ++ ('\x7d' :: rest'))) := by
              rw [parseVal_ws g'
                (skipWs_cons_ws (show isJsonWs ' ' = true from by decide) _),
                hv]
            simp only [parseMembers,
              skipWs_cons_not (show isJsonWs '"' = false from by decide),
              hps,
              skipWs_cons_not (show isJsonWs ':' = false from by decide),
              hv',
              skipWs_cons_ws (show isJsonWs '\n' = true from by decide),
              skipWs_spaces,
              skipWs_cons_not (show isJsonWs '\x7d' = false from by decide)]
            simp +decide
          | cons q qs ihm =>
            intro p' g rest' hq hlt hg
            obtain ⟨k, v⟩ := p'
            rw [jfuelF_cons] at hg
            have h1 := jfuelF_pos (q :: qs)
            have h2 := jfuel_pos v
            obtain ⟨g', rfl⟩ : ∃ g', g = g' + 1 := ⟨g - 1, by omega⟩
            have hv := IH (jfuel v) (hlt (k, v) (by simp)) v le_rfl
              (hq (k, v) (by simp)) (ind + 2) g'
              (',' :: ('\n' :: (spaces (ind + 2) ++
                (stringifyFields (ind + 2) q qs ++
                  ('\n' :: (spaces ind ++ ('\x7d' :: rest'))))))) (by omega)
            have hshape : stringifyFields (ind + 2) (k, v) (q :: qs) ++
                ('\n' :: (spaces ind ++ ('\x7d' :: rest'))) =
                '"' :: (escList k.data ++
                  ('"' :: (':' :: (' ' :: (stringifyJson (ind + 2) v ++
                    (',' :: ('\n' :: (spaces (ind + 2) ++
                      (stringifyFields (ind + 2) q qs ++
                        ('\n' :: (spaces ind ++
                          ('\x7d' :: rest')))))))))))) := by
              simp only [stringifyFields, escStr]
              simp [List.append_assoc]
            rw [hshape]
            have hlen : k.data.length <
                (escList k.data ++ ('"' :: (':' :: (' ' ::
                  (stringifyJson (ind + 2) v ++
                    (',' :: ('\n' :: (spaces (ind + 2) ++
                      (stringifyFields (ind + 2) q qs ++
                        ('\n' :: (spaces ind ++
                          ('\x7d' :: rest')))))))))))).length + 1 := by
              have := escList_length_ge k.data
              simp only [List.length_append, List.length_cons]
              omega
            have hps := parseStr_escape k.data _
              (':' :: (' ' :: (stringifyJson (ind + 2) v ++
                (',' :: ('\n' :: (spaces (ind + 2) ++
                  (stringifyFields (ind + 2) q qs ++
                    ('\n' :: (spaces ind ++ ('\x7d' :: rest')))))))))) hlen
            have hv' : parseVal g' (' ' :: (stringifyJson (ind + 2) v ++
                (',' :: ('\n' :: (spaces (ind + 2) ++
                  (stringifyFields (ind + 2) q qs ++
                    ('\n' :: (spaces ind ++ ('\x7d' :: rest'))))))))) =
                some (v, ',' :: ('\n' :: (spaces (ind + 2) ++
                  (stringifyFields (ind + 2) q qs ++
                    ('\n' :: (spaces ind ++ ('\x7d' :: rest'))))))) := by
              rw [parseVal_ws g'
                (skipWs_cons_ws (show isJsonWs ' ' = true from by decide) _),
                hv]
            have hws3 : skipWs ('\n' :: (spaces (ind + 2) ++
                (stringifyFields (ind + 2) q qs ++
                  ('\n' :: (spaces ind ++ ('\x7d' :: rest')))))) =
                skipWs (stringifyFields (ind + 2) q qs ++
                  ('\n' :: (spaces ind ++ ('\x7d' :: rest')))) := by
              rw [skipWs_cons_ws (by decide), skipWs_spaces]
            simp only [parseMembers,
              skipWs_cons_not (show isJsonWs '"' = false from by decide),
              hps,
              skipWs_cons_not (show isJsonWs ':' = false from by decide),
              hv',
              skipWs_cons_not (show isJsonWs ',' = false from by decide)]
            rw [parseMembers_ws g' hws3,
              ihm q g' rest' (fun z hz => hq z (by simp at hz ⊢; tauto))
                (fun z hz => hlt z (by simp at hz ⊢; tauto)) (by omega)]
            simp +decide
        have hgoal : stringifyJson ind (Json.obj (p :: fs)) ++ rest =
            '\x7b' :: ('\n' :: (spaces (ind + 2) ++
              (stringifyFields (ind + 2) p fs ++
                ('\n' :: (spaces ind ++ ('\x7d' :: rest)))))) := by
          simp only [stringifyJson]
          simp [List.append_assoc]
        rw [hgoal]
        have hmain := mems fs p f' rest hnflds hlts hf'
        have hfhead : ∃ t, stringifyFields (ind + 2) p fs ++
            ('\n' :: (spaces ind ++ ('\x7d' :: rest))) = '"' :: t := by
          obtain ⟨k, v⟩ := p
          cases fs with
          | nil =>
            exact ⟨escList k.data ++ ('"' :: (':' :: (' ' ::
              (stringifyJson (ind + 2) v ++ ('\n' :: (spaces ind ++
                ('\x7d' :: rest))))))), by
              simp only [stringifyFields, escStr]
              simp [List.append_assoc]⟩
          | cons q qs =>
            exact ⟨escList k.data ++ ('"' :: (':' :: (' ' ::
              (stringifyJson (ind + 2) v ++ ((',' :: '\n' :: spaces (ind + 2)) ++
                (stringifyFields (ind + 2) q qs ++ ('\n' :: (spaces ind ++
                  ('\x7d' :: rest))))))))), by
              simp only [stringifyFields, escStr]
              simp [List.append_assoc]⟩
        obtain ⟨tf, htf⟩ := hfhead
        simp only [parseVal,
          skipWs_cons_not (show isJsonWs '\x7b' = false from by decide),
          skipWs_cons_ws (show isJsonWs '\n' = true from by decide),
          skipWs_spaces]
        rw [htf] at hmain ⊢
        rw [skipWs_cons_not (show isJsonWs '"' = false from by decide)]
        simp +decide [hmain]

/-- The fuel needed for a printed value is bounded by its printed length. -/
theorem jfuel_le_len : ∀ (N : Nat) (j : Json), jfuel j ≤ N → NoNumJ j →
    ∀ ind : Nat, jfuel j ≤ (stringifyJson ind j).length := by
  intro N
  induction N using Nat.strong_induction_on with
  | _ N IH =>
    intro j hjN hn ind
    cases j with
    | num m e => cases hn
    | null => simp [stringifyJson, jfuel]
    | bool b => cases b <;> simp [stringifyJson, jfuel]
    | str s => simp [stringifyJson, jfuel, escStr]
    | arr xs =>
      cases xs with
      | nil => simp [stringifyJson, jfuel, jfuelL]
      | cons x xs =>
        have hnelts : ∀ y ∈ x :: xs, NoNumJ y := by
          cases hn with
          | arr _ h => exact h
        have hlts : ∀ y ∈ x :: xs, jfuel y < N := by
          intro y hy
          have h1 := jfuel_mem_lt hy
          have h2 : jfuel (Json.arr (x :: xs)) = 1 + jfuelL (x :: xs) := by
            simp [jfuel]
          omega
        have elems : ∀ (xs' : List Json) (x' : Json) (i : Nat),
            (∀ y ∈ x' :: xs', NoNumJ y) → (∀ y ∈ x' :: xs', jfuel y < N) →
            jfuelL (x' :: xs') ≤ (stringifyElems i x' xs').length + 2 := by
          intro xs'
          induction xs' with
          | nil =>
            intro x' i hq hlt
            have hx := IH (jfuel x') (hlt x' (by simp)) x' le_rfl
              (hq x' (by simp)) i
            rw [jfuelL_cons]
            simp only [stringifyElems, jfuelL]
            omega
          | cons y ys ihe =>
            intro x' i hq hlt
            have hx := IH (jfuel x') (hlt x' (by simp)) x' le_rfl
              (hq x' (by simp)) i
            have hrest := ihe y i (fun z hz => hq z (by simp at hz ⊢; tauto))
              (fun z hz => hlt z (by simp at hz ⊢; tauto))
            rw [jfuelL_cons]
            simp only [stringifyElems, List.length_append, List.length_cons,
              spaces, List.length_replicate]
            omega
        have h := elems xs x (ind + 2) hnelts hlts
        have h2 : jfuel (Json.arr (x :: xs)) = 1 + jfuelL (x :: xs) := by
          simp [jfuel]
        rw [h2]
        simp only [stringifyJson, List.length_cons, List.length_append,
          spaces, List.length_replicate]
        omega
    | obj fs =>
      cases fs with
      | nil => simp [stringifyJson, jfuel, jfuelF]
      | cons p fs =>
        have hnflds : ∀ q ∈ p :: fs, NoNumJ q.2 := by
          cases hn with
          | obj _ h => exact h
        have hlts : ∀ q ∈ p :: fs, jfuel q.2 < N := by
          intro q hq
          have h1 := jfuelF_mem_lt hq
          have h2 : jfuel (Json.obj (p :: fs)) = 1 + jfuelF (p :: fs) := by
            simp [jfuel]
          omega
        have mems : ∀ (fs' : List (String × Json)) (p' : String × Json)
            (i : Nat), (∀ q ∈ p' :: fs', NoNumJ q.2) →
            (∀ q ∈ p' :: fs', jfuel q.2 < N) →
            jfuelF (p' :: fs') ≤ (stringifyFields i p' fs').length + 2 := by
          intro fs'
          induction fs' with
          | nil =>
            intro p' i hq hlt
            obtain ⟨k, v⟩ := p'
            have hv := IH (jfuel v) (hlt (k, v) (by simp)) v le_rfl
              (hq (k, v) (by simp)) i
            rw [jfuelF_cons]
            simp only [stringifyFields, jfuelF, List.length_append,
              List.length_cons, escStr]
            omega
          | cons q qs ihm =>
            intro p' i hq hlt
            obtain ⟨k, v⟩ := p'
            have hv := IH (jfuel v) (hlt (k, v) (by simp)) v le_rfl
              (hq (k, v) (by simp)) i
            have hrest := ihm q i (fun z hz => hq z (by simp at hz ⊢; tauto))
              (fun z hz => hlt z (by simp at hz ⊢; tauto))
            obtain ⟨k2, v2⟩ := q
            rw [jfuelF_cons]
            simp only [stringifyFields, List.length_append, List.length_cons,
              spaces, List.length_replicate, escStr]
            omega
        have h := mems fs p (ind + 2) hnflds hlts
        have h2 : jfuel (Json.obj (p :: fs)) = 1 + jfuelF (p :: fs) := by
          simp [jfuel]
        rw [h2]
        simp only [stringifyJson, List.length_cons, List.length_append,
          spaces, List.length_replicate]
        omega

/-- `JSON.parse` undoes `JSON.stringify(·, null, 2)` on every value made of
strings, booleans, nulls, arrays and objects. -/
theorem jsonParse_stringify (j : Json) (hn : NoNumJ j) :
    jsonParse (stringifyJson 0 j) = some j := by
  have hb := jfuel_le_len (jfuel j) j le_rfl hn 0
  have h := parse_stringify (jfuel j) j le_rfl hn 0
    (2 * (stringifyJson 0 j).length + 2) [] (by omega)
  rw [List.append_nil] at h
  unfold jsonParse
  rw [h]
  rfl

theorem noNum_msgJson (m : Message) : NoNumJ (msgJson m) := by
  refine NoNumJ.obj _ ?_
  intro f hf
  simp only [msgJson, List.mem_cons, List.not_mem_nil, or_false] at hf
  rcases hf with rfl | rfl <;> exact NoNumJ.str _

theorem noNum_record (name : String) (M : List Message) (c? : Option Json)
    (u : String) (hc : ∀ j0, c? = some j0 → NoNumJ j0) :
    NoNumJ (recordJson name M c? u) := by
  refine NoNumJ.obj _ ?_
  intro f hf
  have harr : NoNumJ (Json.arr (M.map msgJson)) := by
    refine NoNumJ.arr _ ?_
    intro x hx
    obtain ⟨m, _, rfl⟩ := List.mem_map.mp hx
    exact noNum_msgJson m
  cases c? with
  | none =>
    simp only [recordJson, List.cons_append, List.nil_append] at hf
    fin_cases hf
    · exact NoNumJ.str _
    · exact harr
    · exact NoNumJ.str _
  | some c0 =>
    simp only [recordJson, List.cons_append, List.nil_append] at hf
    fin_cases hf
    · exact NoNumJ.str _
    · exact harr
    · exact hc c0 rfl
    · exact NoNumJ.str _

theorem storeGet_storeSet_self (st : Store) (k : String) (v : List Char) :
    storeGet (storeSet st k v) k = some v := by
  induction st with
  | nil => simp [storeSet, storeGet]
  | cons e st ih =>
    obtain ⟨n, c⟩ := e
    by_cases h : n = k
    · subst h
      simp [storeSet, storeGet]
    · simp [storeSet, storeGet, h, ih]

theorem record_field_messages (name : String) (M : List Message)
    (c? : Option Json) (u : String) :
    jsField (some (recordJson name M c? u)) "messages" =
      some (Json.arr (M.map msgJson)) := by
  cases c? <;> simp +decide [recordJson, jsField, lookupLast]

theorem record_field_createdAt (name : String) (M : List Message) (c0 : Json)
    (u : String) :
    jsField (some (recordJson name M (some c0) u)) "createdAt" = some c0 := by
  simp +decide [recordJson, jsField, lookupLast]

theorem record_field_updatedAt (name : String) (M : List Message)
    (c? : Option Json) (u : String) :
    jsField (some (recordJson name M c? u)) "updatedAt" =
      some (Json.str u) := by
  cases c? <;> simp +decide [recordJson, jsField, lookupLast]

theorem msgJson_inj : ∀ {M M' : List Message},
    M.map msgJson = M'.map msgJson → M = M' := by
  intro M
  induction M with
  | nil =>
    intro M' h
    cases M' with
    | nil => rfl
    | cons m2 M2 => simp at h
  | cons m M ih =>
    intro M' h
    cases M' with
    | nil => simp at h
    | cons m2 M2 =>
      simp only [List.map_cons, List.cons.injEq] at h
      obtain ⟨h1, h2⟩ := h
      obtain ⟨r, c⟩ := m
      obtain ⟨r2, c2⟩ := m2
      simp [msgJson] at h1
      obtain ⟨hr, hc2⟩ := h1
      rw [hr, hc2, ih h2]

/-- The record written by a fresh save, and by an overwriting save. -/
theorem saveContext_fresh (store : Store) (now : Nat) (name : String)
    (M : List Message) (hnone : storeGet store name = none) :
    saveContext store now name M = (true, storeSet store name
      (stringifyJson 0 (recordJson name M
        (some (Json.str (isoOfTime now))) (isoOfTime now)))) := by
  simp [saveContext, hnone]

theorem saveContext_existing (store : Store) (now : Nat) (name : String)
    (M : List Message) (content : List Char) (old : Json) (c? : Option Json)
    (hsome : storeGet store name = some content)
    (hparse : jsonParse content = some old)
    (hcreated : jsGetProp old "createdAt" = some c?) :
    saveContext store now name M = (true, storeSet store name
      (stringifyJson 0 (recordJson name M c? (isoOfTime now)))) := by
  simp [saveContext, hsome, hparse, hcreated]

/-- **C5.** Context round trip with creation-timestamp preservation: a
successful `saveContext(name, M)` followed by `loadContext(name)` returns a
record whose `messages` field is exactly the encoding of `M` (and the
encoding is injective, so the messages are recovered exactly, order and
content); a fresh save stamps `createdAt = updatedAt = now`, while a save
over an existing record keeps the old record's `createdAt` and stamps a
fresh `updatedAt`, the new messages fully replacing the old ones. -/
theorem context_round_trip :
    (∀ (store : Store) (now : Nat) (name : String) (M : List Message),
      storeGet store name = none →
      (saveContext store now name M).1 = true ∧
      ∃ j, loadContext (saveContext store now name M).2 name = some j ∧
        jsField (some j) "messages" = some (Json.arr (M.map msgJson)) ∧
        jsField (some j) "createdAt" = some (Json.str (isoOfTime now)) ∧
        jsField (some j) "updatedAt" = some (Json.str (isoOfTime now))) ∧
    (∀ (store : Store) (now : Nat) (name : String) (M : List Message)
      (content : List Char) (old : Json) (c : String),
      storeGet store name = some content →
      jsonParse content = some old →
      jsGetProp old "createdAt" = some (some (Json.str c)) →
      (saveContext store now name M).1 = true ∧
      ∃ j, loadContext (saveContext store now name M).2 name = some j ∧
        jsField (some j) "messages" = some (Json.arr (M.map msgJson)) ∧
        jsField (some j) "createdAt" = some (Json.str c) ∧
        jsField (some j) "updatedAt" = some (Json.str (isoOfTime now))) ∧
    (∀ M M' : List Message, M.map msgJson = M'.map msgJson → M = M') := by
  refine ⟨?_, ?_, fun M M' h => msgJson_inj h⟩
  · intro store now name M hnone
    rw [saveContext_fresh store now name M hnone]
    refine ⟨rfl, recordJson name M (some (Json.str (isoOfTime now)))
      (isoOfTime now), ?_, record_field_messages _ _ _ _,
      record_field_createdAt _ _ _ _, record_field_updatedAt _ _ _ _⟩
    have hnn : NoNumJ (recordJson name M (some (Json.str (isoOfTime now)))
        (isoOfTime now)) := by
      refine noNum_record _ _ _ _ ?_
      intro j0 h0
      cases h0
      exact NoNumJ.str _
    simp only [loadContext, storeGet_storeSet_self, jsonParse_stringify _ hnn]
  · intro store now name M content old c hsome hparse hcreated
    rw [saveContext_existing store now name M content old
      (some (Json.str c)) hsome hparse hcreated]
    refine ⟨rfl, recordJson name M (some (Json.str c)) (isoOfTime now), ?_,
      record_field_messages _ _ _ _, record_field_createdAt _ _ _ _,
      record_field_updatedAt _ _ _ _⟩
    have hnn : NoNumJ (recordJson name M (some (Json.str c))
        (isoOfTime now)) := by
      refine noNum_record _ _ _ _ ?_
      intro j0 h0
      cases h0
      exact NoNumJ.str _
    simp only [loadContext, storeGet_storeSet_self, jsonParse_stringify _ hnn]

/-- Witness for C5: a fresh save of one message into an empty store, read
back. -/
theorem context_round_trip_witness :
    (saveContext [] 7 "demo" [⟨"user", "Hello"⟩]).1 = true ∧
    ∃ j, loadContext (saveContext [] 7 "demo" [⟨"user", "Hello"⟩]).2 "demo" =
        some j ∧
      jsField (some j) "messages" =
        some (Json.arr ([(⟨"user", "Hello"⟩ : Message)].map msgJson)) ∧
      jsField (some j) "createdAt" = some (Json.str (isoOfTime 7)) ∧
      jsField (some j) "updatedAt" = some (Json.str (isoOfTime 7)) :=
  context_round_trip.1 [] 7 "demo" [⟨"user", "Hello"⟩] rfl

/-- The updated-timestamp key the comparator sorts on. -/
def updMs (s : Summary) : Int := (jsDateMs s.lastUpdated).getD 0

theorem cmpMs_lt (a b : Summary)
    (ha : (jsDateMs a.lastUpdated).isSome = true)
    (hb : (jsDateMs b.lastUpdated).isSome = true) :
    cmpMs a b < 0 ↔ updMs b < updMs a := by
  obtain ⟨x, hx⟩ := Option.isSome_iff_exists.mp ha
  obtain ⟨y, hy⟩ := Option.isSome_iff_exists.mp hb
  simp [cmpMs, updMs, hx, hy]

theorem insertSorted_perm (x : Summary) :
    ∀ l : List Summary, (insertSorted x l).Perm (x :: l)
  | [] => List.Perm.refl _
  | y :: ys => by
    simp only [insertSorted]
    by_cases h : cmpMs y x < 0
    · rw [if_pos h]
      exact ((insertSorted_perm x ys).cons y).trans (List.Perm.swap x y ys)
    · rw [if_neg h]

theorem sortSummaries_perm : ∀ l : List Summary, (sortSummaries l).Perm l
  | [] => List.Perm.refl _
  | x :: xs => (insertSorted_perm x (sortSummaries xs)).trans
      ((sortSummaries_perm xs).cons x)

theorem insertSorted_pairwise (x : Summary)
    (hx : (jsDateMs x.lastUpdated).isSome = true) :
    ∀ l : List Summary,
    (∀ s ∈ l, (jsDateMs s.lastUpdated).isSome = true) →
    l.Pairwise (fun a b => updMs b ≤ updMs a) →
    (insertSorted x l).Pairwise (fun a b => updMs b ≤ updMs a)
  | [] => fun _ _ => by simp [insertSorted]
  | y :: ys => fun hsome hp => by
    have hy := hsome y (List.mem_cons_self y ys)
    have hys : ∀ s ∈ ys, (jsDateMs s.lastUpdated).isSome = true :=
      fun s hs => hsome s (List.mem_cons_of_mem _ hs)
    rw [List.pairwise_cons] at hp
    obtain ⟨hyall, hpys⟩ := hp
    simp only [insertSorted]
    by_cases h : cmpMs y x < 0
    · rw [if_pos h]
      rw [List.pairwise_cons]
      refine ⟨?_, insertSorted_pairwise x hx ys hys hpys⟩
      intro z hz
      rcases List.mem_cons.mp ((insertSorted_perm x ys).mem_iff.mp hz) with
        rfl | hzys
      · exact le_of_lt ((cmpMs_lt y z hy hx).mp h)
      · exact hyall z hzys
    · rw [if_neg h]
      have hyx : updMs y ≤ updMs x :=
        le_of_not_lt (fun hlt => h ((cmpMs_lt y x hy hx).mpr hlt))
      rw [List.pairwise_cons]
      refine ⟨?_, List.pairwise_cons.mpr ⟨hyall, hpys⟩⟩
      intro z hz
      rcases List.mem_cons.mp hz with rfl | hzys
      · exact hyx
      · exact le_trans (hyall z hzys) hyx

theorem sortSummaries_pairwise : ∀ l : List Summary,
    (∀ s ∈ l, (jsDateMs s.lastUpdated).isSome = true) →
    (sortSummaries l).Pairwise (fun a b => updMs b ≤ updMs a)
  | [] => fun _ => List.Pairwise.nil
  | x :: xs => fun h =>
    insertSorted_pairwise x (h x (List.mem_cons_self x xs))
      (sortSummaries xs)
      (fun s hs => h s (List.mem_cons_of_mem _
        ((sortSummaries_perm xs).mem_iff.mp hs)))
      (sortSummaries_pairwise xs
        (fun s hs => h s (List.mem_cons_of_mem _ hs)))

/-- The summary row produced from one saved record. -/
theorem summaryOf_record (name : String) (M : List Message) (c0 : Json)
    (u : String) :
    summaryOf (recordJson name M (some c0) u) =
      some ⟨some (Json.str name), some (Json.num (M.length : Int) 0),
        some (Json.str u), some c0⟩ := by
  simp +decide [summaryOf, recordJson, jsGetProp, lookupLast]

/-- **C6.** List ordering: `listContexts` returns one summary row per stored
record (a permutation of the rows read in directory order) sorted by updated
timestamp most-recent first (whenever the stored timestamps actually parse
as dates, so the subtraction comparator is a real order); in particular for
three contexts saved at times `t1 < t2 < t3` the result lists them in the
order `t3, t2, t1`. -/
theorem list_ordering :
    (∀ (store : Store) (ss : List Summary),
      summariesOf store = some ss →
      (∀ s ∈ ss, (jsDateMs s.lastUpdated).isSome = true) →
      (listContexts store).Perm ss ∧
      (listContexts store).Pairwise (fun a b => updMs b ≤ updMs a)) ∧
    (∀ (t1 t2 t3 : Nat) (n1 n2 n3 : String) (M1 M2 M3 : List Message),
      t1 < t2 → t2 < t3 →
      listContexts
        [(n1, stringifyJson 0 (recordJson n1 M1
            (some (Json.str (isoOfTime t1))) (isoOfTime t1))),
         (n2, stringifyJson 0 (recordJson n2 M2
            (some (Json.str (isoOfTime t2))) (isoOfTime t2))),
         (n3, stringifyJson 0 (recordJson n3 M3
            (some (Json.str (isoOfTime t3))) (isoOfTime t3)))] =
        [⟨some (Json.str n3), some (Json.num (M3.length : Int) 0),
            some (Json.str (isoOfTime t3)), some (Json.str (isoOfTime t3))⟩,
         ⟨some (Json.str n2), some (Json.num (M2.length : Int) 0),
            some (Json.str (isoOfTime t2)), some (Json.str (isoOfTime t2))⟩,
         ⟨some (Json.str n1), some (Json.num (M1.length : Int) 0),
            some (Json.str (isoOfTime t1)), some (Json.str (isoOfTime t1))⟩]) := by
  constructor
  · intro store ss hsum hsome
    have hl : listContexts store = sortSummaries ss := by
      simp only [listContexts, hsum]
    rw [hl]
    exact ⟨sortSummaries_perm ss, sortSummaries_pairwise ss hsome⟩
  · intro t1 t2 t3 n1 n2 n3 M1 M2 M3 h12 h23
    have hnn : ∀ (n : String) (M : List Message) (t : Nat),
        NoNumJ (recordJson n M (some (Json.str (isoOfTime t)))
          (isoOfTime t)) := by
      intro n M t
      refine noNum_record _ _ _ _ ?_
      intro j0 h0
      cases h0
      exact NoNumJ.str _
    have hk : ∀ t : Nat,
        jsDateMs (some (Json.str (isoOfTime t))) = some (t : Int) := by
      intro t
      simp [jsDateMs, timeOfIso_isoOfTime]
    have hsum : summariesOf
        [(n1, stringifyJson 0 (recordJson n1 M1
            (some (Json.str (isoOfTime t1))) (isoOfTime t1))),
         (n2, stringifyJson 0 (recordJson n2 M2
            (some (Json.str (isoOfTime t2))) (isoOfTime t2))),
         (n3, stringifyJson 0 (recordJson n3 M3
            (some (Json.str (isoOfTime t3))) (isoOfTime t3)))] =
        some [⟨some (Json.str n1), some (Json.num (M1.length : Int) 0),
            some (Json.str (isoOfTime t1)), some (Json.str (isoOfTime t1))⟩,
          ⟨some (Json.str n2), some (Json.num (M2.length : Int) 0),
            some (Json.str (isoOfTime t2)), some (Json.str (isoOfTime t2))⟩,
          ⟨some (Json.str n3), some (Json.num (M3.length : Int) 0),
            some (Json.str (isoOfTime t3)), some (Json.str (isoOfTime t3))⟩] := by
      simp only [summariesOf, jsonParse_stringify _ (hnn n1 M1 t1),
        jsonParse_stringify _ (hnn n2 M2 t2),
        jsonParse_stringify _ (hnn n3 M3 t3), summaryOf_record]
    have c32 : cmpMs
        ⟨some (Json.str n3), some (Json.num (M3.length : Int) 0),
          some (Json.str (isoOfTime t3)), some (Json.str (isoOfTime t3))⟩
        ⟨some (Json.str n2), some (Json.num (M2.length : Int) 0),
          some (Json.str (isoOfTime t2)), some (Json.str (isoOfTime t2))⟩ <
        0 := by
      simp only [cmpMs, hk]
      omega
    have c31 : cmpMs
        ⟨some (Json.str n3), some (Json.num (M3.length : Int) 0),
          some (Json.str (isoOfTime t3)), some (Json.str (isoOfTime t3))⟩
        ⟨some (Json.str n1), some (Json.num (M1.length : Int) 0),
          some (Json.str (isoOfTime t1)), some (Json.str (isoOfTime t1))⟩ <
        0 := by
      simp only [cmpMs, hk]
      omega
    have c21 : cmpMs
        ⟨some (Json.str n2), some (Json.num (M2.length : Int) 0),
          some (Json.str (isoOfTime t2)), some (Json.str (isoOfTime t2))⟩
        ⟨some (Json.str n1), some (Json.num (M1.length : Int) 0),
          some (Json.str (isoOfTime t1)), some (Json.str (isoOfTime t1))⟩ <
        0 := by
      simp only [cmpMs, hk]
      omega
    simp only [listContexts, hsum, sortSummaries, insertSorted]
    rw [if_pos c32]
    simp only [insertSorted]
    rw [if_pos c31, if_pos c21]

/-- Witness for C6: three contexts saved at times 1 < 2 < 3 list in the
order 3, 2, 1; the general part holds of the empty store. -/
theorem list_ordering_witness :
    ((listContexts []).Perm [] ∧
      (listContexts []).Pairwise (fun a b => updMs b ≤ updMs a)) ∧
    listContexts
        [("a", stringifyJson 0 (recordJson "a" []
            (some (Json.str (isoOfTime 1))) (isoOfTime 1))),
         ("b", stringifyJson 0 (recordJson "b" []
            (some (Json.str (isoOfTime 2))) (isoOfTime 2))),
         ("c", stringifyJson 0 (recordJson "c" []
            (some (Json.str (isoOfTime 3))) (isoOfTime 3)))] =
      [⟨some (Json.str "c"), some (Json.num 0 0),
          some (Json.str (isoOfTime 3)), some (Json.str (isoOfTime 3))⟩,
       ⟨some (Json.str "b"), some (Json.num 0 0),
          some (Json.str (isoOfTime 2)), some (Json.str (isoOfTime 2))⟩,
       ⟨some (Json.str "a"), some (Json.num 0 0),
          some (Json.str (isoOfTime 1)), some (Json.str (isoOfTime 1))⟩] :=
  ⟨list_ordering.1 [] [] rfl (by intro s hs; cases hs),
   list_ordering.2 1 2 3 "a" "b" "c" [] [] [] (by decide) (by decide)⟩

/-- **C10.** `saveContext` fails closed on a corrupted existing record: if
the backing file exists but holds invalid JSON, the re-read of the old
`createdAt` throws inside the guarded block before any write, so the call
reports failure (`false`) and the store is byte-for-byte unchanged. -/
theorem saveContext_corrupt_fails_closed (store : Store) (now : Nat)
    (name : String) (messages : List Message) (content : List Char)
    (hget : storeGet store name = some content)
    (hbad : jsonParse content = none) :
    saveContext store now name messages = (false, store) := by
  simp [saveContext, hget, hbad]

/-- Witness for C10: a store whose only record is the invalid file `{`. -/
theorem saveContext_corrupt_fails_closed_witness :
    saveContext [("work", "\x7b".data)] 5 "work" [⟨"user", "hi"⟩] =
      (false, [("work", "\x7b".data)]) :=
  saveContext_corrupt_fails_closed [("work", "\x7b".data)] 5 "work"
    [⟨"user", "hi"⟩] "\x7b".data rfl rfl

/-! ### The conversation manager (src/ai.js)

`sendAIQueryWithContext` with its helpers `loadConfig` (src/config.js),
`getAPIKey`, `setupOllama` and `sendOllamaQuery`.  Everything outside the
process is an explicit input: the prompt answers, the daemon liveness probe
and the transport outcome of each chat endpoint.  `saveConfig` is modelled
as succeeding (a config-file write error only logs, and the in-memory
config a failed save would leave behind is discarded with the call). -/

/-- Hardcoded fallback model for the cloud provider (src/config.js). -/
def DEFAULT_MODEL : String := "openai/gpt-4o"

/-- Hardcoded fallback model for the local daemon (src/config.js). -/
def DEFAULT_OLLAMA_MODEL : String := "llama3.1"

/-- Hardcoded fallback daemon URL (src/config.js). -/
def DEFAULT_OLLAMA_URL : String := "http://localhost:11434"

/-- The config file contents: `none` is an absent field, `some ""` one that
is present but falsy (both are replaced by the default in `loadConfig`). -/
structure RawConfig where
  apiKey : Option String
  provider : Option String
  model : Option String
  ollamaUrl : Option String
  ollamaModel : Option String
deriving Repr, DecidableEq

/-- `v || d` for a string-valued config field (absent and `""` are falsy). -/
def orDefault (v : Option String) (d : String) : String :=
  match v with
  | some s => if s = "" then d else s
  | none => d

/-- The config object after `loadConfig` filled in the defaults. -/
structure Config where
  apiKey : Option String
  provider : String
  model : String
  ollamaUrl : String
  ollamaModel : String
deriving Repr, DecidableEq

/-- `loadConfig` (src/config.js): falsy `model`, `provider`, `ollamaUrl` and
`ollamaModel` take their defaults; `apiKey` is returned as stored. -/
def loadConfig (rc : RawConfig) : Config :=
  ⟨rc.apiKey, orDefault rc.provider "openrouter",
   orDefault rc.model DEFAULT_MODEL,
   orDefault rc.ollamaUrl DEFAULT_OLLAMA_URL,
   orDefault rc.ollamaModel DEFAULT_OLLAMA_MODEL⟩

/-- JavaScript truthiness of a possibly-absent string. -/
def truthyS : Option String → Bool
  | none => false
  | some s => s != ""

/-- One chat request's transport outcome: the connection fails, or a
response arrives that is non-2xx (`response.ok` false), or a 2xx response
with a streamed body (its chunks) and a JSON body (`none` when
`response.json()` would reject).  Only one of the two bodies is read. -/
inductive Transport where
  | netError
  | httpError
  | ok (chunks : List (List Char)) (body : Option Json)
deriving Repr

/-- A non-success transport outcome: the connection failed or the status
was non-2xx. -/
def Transport.failed : Transport → Bool
  | Transport.ok _ _ => false
  | _ => true

/-- Everything outside the process that one invocation can observe. -/
structure World where
  ollamaProbe : Bool
  providerChoice : String
  apiKeyAnswer : String
  ollamaModelAnswer : String
  cloud : Transport
  daemon : Transport
  now : Nat
deriving Repr

/-- `setupOllama` (ai.js lines 414–451): prompts for a model id when the
configured one is missing or still the default (after `loadConfig` the
field is never falsy, so the test is equality with the default), then
probes `/api/tags`; `none` is `process.exit(1)`, otherwise the possibly
updated config file is returned. -/
def setupOllama (rc : RawConfig) (w : World) : Option RawConfig :=
  let cfg := loadConfig rc
  let step :=
    if cfg.ollamaModel = DEFAULT_OLLAMA_MODEL then
      if w.ollamaModelAnswer = "" then none
      else some { rc with ollamaModel := some w.ollamaModelAnswer }
    else some rc
  match step with
  | none => none
  | some rc1 => if w.ollamaProbe then some rc1 else none

/-- `getAPIKey` (ai.js lines 348–412): returns the stored key if truthy;
for the local provider it instead probes the daemon and returns `null`;
otherwise it runs the first-time setup dialogue.  The outer `none` is
`process.exit(1)`; a returned pair is the key (`none` is `null`) and the
config file as left behind. -/
def getAPIKey (rc : RawConfig) (w : World) : Option (Option String × RawConfig) :=
  let cfg := loadConfig rc
  if truthyS cfg.apiKey then some (cfg.apiKey, rc)
  else if cfg.provider = "ollama" then
    if w.ollamaProbe then some (none, rc) else none
  else if w.providerChoice = "2" then
    match setupOllama { rc with provider := some "ollama" } w with
    | none => none
    | some rc2 => some (none, rc2)
  else
    if w.apiKeyAnswer = "" then none
    else some (some w.apiKeyAnswer,
      { rc with apiKey := some w.apiKeyAnswer, provider := some "openrouter" })

/-- The JavaScript value held by `assistantResponse` when the manager
reaches its save check. -/
inductive JVal where
  | undef
  | str (s : String)
  | other (j : Json)
deriving Repr

/-- Truthiness of an `assistantResponse` value. -/
def jvTruthy : JVal → Bool
  | JVal.undef => false
  | JVal.str s => s != ""
  | JVal.other j => jsTruthy (some j)

/-- The value read off a message's `content` field. -/
def jvalOfContent : Option Json → JVal
  | some (Json.str s) => JVal.str s
  | some j => JVal.other j
  | none => JVal.undef

/-- How one provider query ends: the process exits during setup, an error
is thrown to the caller, or a value is returned. -/
inductive QueryRes where
  | exited
  | threw
  | value (v : JVal)
deriving Repr

/-- `sendOllamaQuery` (ai.js lines 504–555) with `useStreaming` explicit:
the model id is read from its own `loadConfig` BEFORE `setupOllama` runs
(so a model id entered during setup is not used by this request), the
daemon must be up, and the chat request is posted with that model; a
network error, a non-2xx status or a rejected `response.json()` is
rethrown to the caller.  The returned pair is the outcome and the model id
placed in the outbound request body. -/
def sendOllamaQuery (rc : RawConfig) (w : World) (streaming : Bool) :
    QueryRes × String :=
  let cfg := loadConfig rc
  (match setupOllama rc w with
   | none => QueryRes.exited
   | some _ =>
     match w.daemon with
     | Transport.netError => QueryRes.threw
     | Transport.httpError => QueryRes.threw
     | Transport.ok chunks body =>
       if streaming then QueryRes.value (JVal.str (decodeOllama chunks).full)
       else
         match body with
         | none => QueryRes.threw
         | some data =>
           if jsTruthy (jsField (some data) "message") &&
               jsTruthy (jsField (jsField (some data) "message") "content") then
             QueryRes.value
               (jvalOfContent (jsField (jsField (some data) "message") "content"))
           else QueryRes.value JVal.undef,
   cfg.ollamaModel)

/-- `useOllama` (ai.js line 609): the configured provider is `"ollama"`
and no truthy model override was passed. -/
def tookOllama (rc : RawConfig) (ov : Option String) : Bool :=
  ((loadConfig rc).provider == "ollama") && !(truthyS ov)

/-- `model` (ai.js line 610): `modelOverride || (useOllama ?
config.ollamaModel : config.model) || (useOllama ? DEFAULT_OLLAMA_MODEL :
DEFAULT_MODEL)`. -/
def effectiveModel (rc : RawConfig) (ov : Option String) : String :=
  let cfg := loadConfig rc
  let useOl := tookOllama rc ov
  let m1 := if truthyS ov then ov.getD ""
            else if useOl then cfg.ollamaModel else cfg.model
  if m1 = "" then (if useOl then DEFAULT_OLLAMA_MODEL else DEFAULT_MODEL) else m1

/-- The save block at the end of `sendAIQueryWithContext` (ai.js lines
662–666): a truthy response is pushed as the assistant turn and the
context saved (a `saveContext` failure only logs; the pushed message
stays).  A truthy non-string response would persist a record with
non-string `content`; the string-transcript store cannot represent that
record, so the state is returned unchanged there — the value itself is
still reported by the caller and no claim below reaches that case. -/
def finishSave (store : Store) (now : Nat) (contextName : String)
    (messages : List Message) (v : JVal) : Store × List Message :=
  match v with
  | JVal.str s =>
    if s = "" then (store, messages)
    else
      let ms := messages ++ [⟨"assistant", s⟩]
      ((saveContext store now contextName ms).2, ms)
  | _ => (store, messages)

/-- Everything one invocation of the manager did. -/
structure SendResult where
  reported : Bool
  exited : Bool
  requested : Bool
  reqOllama : Bool
  reqModel : String
  assistant : JVal
  store : Store
  messages : List Message

/-- A query that returned a value: the save block runs on it. -/
def valueResult (isOllama : Bool) (model : String) (store : Store) (now : Nat)
    (contextName : String) (messages : List Message) (v : JVal) : SendResult :=
  let sm := finishSave store now contextName messages v
  { reported := false, exited := false, requested := true,
    reqOllama := isOllama, reqModel := model, assistant := v,
    store := sm.1, messages := sm.2 }

/-- The Ollama branch of the manager: how each outcome of
`sendOllamaQuery` lands (a thrown error is caught by the outer handler,
which reports). -/
def ollamaRespond (store : Store) (now : Nat) (contextName : String)
    (messages : List Message) (qm : QueryRes × String) : SendResult :=
  match qm with
  | (QueryRes.exited, _) =>
    { reported := false, exited := true, requested := false,
      reqOllama := true, reqModel := "", assistant := JVal.undef,
      store := store, messages := messages }
  | (QueryRes.threw, m) =>
    { reported := true, exited := false, requested := true,
      reqOllama := true, reqModel := m, assistant := JVal.undef,
      store := store, messages := messages }
  | (QueryRes.value v, m) => valueResult true m store now contextName messages v

/-- The cloud branch of the manager after the key was obtained (ai.js
lines 618–660): post the chat request, throw on a non-success outcome
(caught by the outer handler, which reports), decode the streamed body or
read the JSON one, then run the save block. -/
def cloudRespond (model : String) (store : Store) (now : Nat)
    (contextName : String) (messages : List Message) (streaming : Bool)
    (t : Transport) : SendResult :=
  match t with
  | Transport.netError =>
    { reported := true, exited := false, requested := true,
      reqOllama := false, reqModel := model, assistant := JVal.undef,
      store := store, messages := messages }
  | Transport.httpError =>
    { reported := true, exited := false, requested := true,
      reqOllama := false, reqModel := model, assistant := JVal.undef,
      store := store, messages := messages }
  | Transport.ok chunks body =>
    if streaming then
      valueResult false model store now contextName messages
        (JVal.str (decodeSSE chunks).full)
    else
      match body with
      | none =>
        { reported := true, exited := false, requested := true,
          reqOllama := false, reqModel := model, assistant := JVal.undef,
          store := store, messages := messages }
      | some data =>
        if jsTruthy (jsField (some data) "choices") &&
            jsTruthy (jsIndex (jsField (some data) "choices") 0) &&
            jsTruthy (jsField (jsIndex (jsField (some data) "choices") 0)
              "message") then
          valueResult false model store now contextName messages
            (jvalOfContent (jsField
              (jsField (jsIndex (jsField (some data) "choices") 0) "message")
              "content"))
        else
          { reported := false, exited := false, requested := true,
            reqOllama := false, reqModel := model, assistant := JVal.undef,
            store := store, messages := messages }

/-- `sendAIQueryWithContext` (ai.js lines 604–669) over explicit world and
store state: resolve provider and model, query it (the cloud path obtains
the key first), then run the save block; any error thrown on the way is
caught by the outer handler, which reports and leaves the transcript
alone. -/
def sendAIQueryWithContext (rc : RawConfig) (store : Store)
    (messages : List Message) (contextName : String) (streaming : Bool)
    (modelOverride : Option String) (w : World) : SendResult :=
  if tookOllama rc modelOverride then
    ollamaRespond store w.now contextName messages
      (sendOllamaQuery rc w streaming)
  else
    match getAPIKey rc w with
    | none =>
      { reported := false, exited := true, requested := false,
        reqOllama := false, reqModel := "", assistant := JVal.undef,
        store := store, messages := messages }
    | some _ =>
      cloudRespond (effectiveModel rc modelOverride) store w.now contextName
        messages streaming w.cloud

/-- The spec's resolution rule, transcribed from its words: the override if
given, else the provider-specific configured entry, else that provider's
hardcoded fallback constant (`orDefault` is the configured-else-fallback
step; a given override means a JS-truthy one, since `""` and `null` both
fail the code's `modelOverride ||` test identically). -/
def specEffectiveModel (ov : Option String) (rc : RawConfig)
    (isLocal : Bool) : String :=
  if truthyS ov then ov.getD ""
  else if isLocal then orDefault rc.ollamaModel DEFAULT_OLLAMA_MODEL
  else orDefault rc.model DEFAULT_MODEL

theorem orDefault_ne (v : Option String) (d : String) (hd : d ≠ "") :
    orDefault v d ≠ "" := by
  cases v with
  | none => simpa [orDefault] using hd
  | some s =>
    by_cases hs : s = "" <;> simp [orDefault, hs, hd]

theorem tookOllama_no_override (rc : RawConfig) (ov : Option String)
    (h : tookOllama rc ov = true) : truthyS ov = false := by
  have := (Bool.and_eq_true _ _).mp h
  simpa using this.2

theorem effectiveModel_cloud (rc : RawConfig) (ov : Option String)
    (h : tookOllama rc ov = false) :
    effectiveModel rc ov = specEffectiveModel ov rc false := by
  unfold effectiveModel specEffectiveModel
  by_cases hov : truthyS ov = true
  · have hne : ov.getD "" ≠ "" := by
      cases ov with
      | none => simp [truthyS] at hov
      | some s => simpa [truthyS] using hov
    simp [hov, h, hne]
  · have hov' : truthyS ov = false := by
      revert hov; cases truthyS ov <;> simp
    simp [hov', h, loadConfig,
      orDefault_ne rc.model DEFAULT_MODEL (by simp [DEFAULT_MODEL])]

theorem specEffectiveModel_local (rc : RawConfig) (ov : Option String)
    (h : tookOllama rc ov = true) :
    specEffectiveModel ov rc true = orDefault rc.ollamaModel DEFAULT_OLLAMA_MODEL := by
  simp [specEffectiveModel, tookOllama_no_override rc ov h]

theorem sendOllamaQuery_model (rc : RawConfig) (w : World) (streaming : Bool) :
    (sendOllamaQuery rc w streaming).2 = orDefault rc.ollamaModel DEFAULT_OLLAMA_MODEL :=
  rfl

theorem sendOllamaQuery_fail (rc : RawConfig) (w : World) (streaming : Bool)
    (h : Transport.failed w.daemon = true) :
    (sendOllamaQuery rc w streaming).1 = QueryRes.exited ∨
    (sendOllamaQuery rc w streaming).1 = QueryRes.threw := by
  rcases hd : w.daemon with _ | _ | ⟨chunks, body⟩
  · rcases hs : setupOllama rc w with _ | rc1
    · exact Or.inl (by simp only [sendOllamaQuery, hs])
    · exact Or.inr (by simp only [sendOllamaQuery, hs, hd])
  · rcases hs : setupOllama rc w with _ | rc1
    · exact Or.inl (by simp only [sendOllamaQuery, hs])
    · exact Or.inr (by simp only [sendOllamaQuery, hs, hd])
  · rw [hd] at h
    simp [Transport.failed] at h

theorem finishSave_empty (store : Store) (now : Nat) (cn : String)
    (msgs : List Message) (v : JVal)
    (h : v = JVal.str "" ∨ v = JVal.undef) :
    finishSave store now cn msgs v = (store, msgs) := by
  rcases h with rfl | rfl <;> rfl

theorem valueResult_state (o : Bool) (model : String) (store : Store)
    (now : Nat) (cn : String) (msgs : List Message) (v : JVal)
    (h : v = JVal.str "" ∨ v = JVal.undef) :
    (valueResult o model store now cn msgs v).store = store ∧
    (valueResult o model store now cn msgs v).messages = msgs := by
  constructor
  · show (finishSave store now cn msgs v).1 = store
    rw [finishSave_empty store now cn msgs v h]
  · show (finishSave store now cn msgs v).2 = msgs
    rw [finishSave_empty store now cn msgs v h]

theorem ollamaRespond_ids (store : Store) (now : Nat) (cn : String)
    (msgs : List Message) (q : QueryRes) (m : String) :
    (ollamaRespond store now cn msgs (q, m)).reqOllama = true ∧
    ((ollamaRespond store now cn msgs (q, m)).requested = true →
      (ollamaRespond store now cn msgs (q, m)).reqModel = m) := by
  cases q with
  | exited => exact ⟨rfl, fun h => Bool.noConfusion h⟩
  | threw => exact ⟨rfl, fun _ => rfl⟩
  | value v => exact ⟨rfl, fun _ => rfl⟩

theorem ollamaRespond_abort (store : Store) (now : Nat) (cn : String)
    (msgs : List Message) (qm : QueryRes × String)
    (h : qm.1 = QueryRes.exited ∨ qm.1 = QueryRes.threw) :
    (ollamaRespond store now cn msgs qm).store = store ∧
    (ollamaRespond store now cn msgs qm).messages = msgs ∧
    ((ollamaRespond store now cn msgs qm).requested = true →
      (ollamaRespond store now cn msgs qm).reported = true) := by
  rcases qm with ⟨q, m⟩
  cases q with
  | exited => exact ⟨rfl, rfl, fun hh => Bool.noConfusion hh⟩
  | threw => exact ⟨rfl, rfl, fun _ => rfl⟩
  | value v => rcases h with h | h <;> exact QueryRes.noConfusion h

theorem ollamaRespond_empty (store : Store) (now : Nat) (cn : String)
    (msgs : List Message) (q : QueryRes) (m : String)
    (h : (ollamaRespond store now cn msgs (q, m)).assistant = JVal.str "" ∨
      (ollamaRespond store now cn msgs (q, m)).assistant = JVal.undef) :
    (ollamaRespond store now cn msgs (q, m)).store = store ∧
    (ollamaRespond store now cn msgs (q, m)).messages = msgs := by
  cases q with
  | exited => exact ⟨rfl, rfl⟩
  | threw => exact ⟨rfl, rfl⟩
  | value v => exact valueResult_state true m store now cn msgs v h

theorem cloudRespond_ids (model : String) (store : Store) (now : Nat)
    (cn : String) (msgs : List Message) (streaming : Bool) (t : Transport) :
    (cloudRespond model store now cn msgs streaming t).reqOllama = false ∧
    (cloudRespond model store now cn msgs streaming t).reqModel = model := by
  cases t with
  | netError => exact ⟨rfl, rfl⟩
  | httpError => exact ⟨rfl, rfl⟩
  | ok chunks body =>
    cases streaming with
    | true => exact ⟨rfl, rfl⟩
    | false =>
      cases body with
      | none => exact ⟨rfl, rfl⟩
      | some data =>
        simp only [cloudRespond, Bool.false_eq_true, if_false]
        split <;> exact ⟨rfl, rfl⟩

theorem cloudRespond_fail (model : String) (store : Store) (now : Nat)
    (cn : String) (msgs : List Message) (streaming : Bool) (t : Transport)
    (h : Transport.failed t = true) :
    (cloudRespond model store now cn msgs streaming t).store = store ∧
    (cloudRespond model store now cn msgs streaming t).messages = msgs ∧
    ((cloudRespond model store now cn msgs streaming t).requested = true →
      (cloudRespond model store now cn msgs streaming t).reported = true) := by
  cases t with
  | netError => exact ⟨rfl, rfl, fun _ => rfl⟩
  | httpError => exact ⟨rfl, rfl, fun _ => rfl⟩
  | ok chunks body => simp [Transport.failed] at h

theorem cloudRespond_empty (model : String) (store : Store) (now : Nat)
    (cn : String) (msgs : List Message) (streaming : Bool) (t : Transport)
    (h : (cloudRespond model store now cn msgs streaming t).assistant
        = JVal.str "" ∨
      (cloudRespond model store now cn msgs streaming t).assistant
        = JVal.undef) :
    (cloudRespond model store now cn msgs streaming t).store = store ∧
    (cloudRespond model store now cn msgs streaming t).messages = msgs := by
  cases t with
  | netError => exact ⟨rfl, rfl⟩
  | httpError => exact ⟨rfl, rfl⟩
  | ok chunks body =>
    cases streaming with
    | true =>
      exact valueResult_state false model store now cn msgs
        (JVal.str (decodeSSE chunks).full) h
    | false =>
      cases body with
      | none => exact ⟨rfl, rfl⟩
      | some data =>
        simp only [cloudRespond, Bool.false_eq_true, if_false] at h ⊢
        split <;> rename_i heq
        · rw [if_pos heq] at h
          exact valueResult_state false model store now cn msgs _ h
        · exact ⟨rfl, rfl⟩

/-- **C1.** Transcript commit atomicity: whenever the chat endpoint the
invocation would consult has a non-success transport outcome (network
error or non-2xx status), the context store and the working message list
are left exactly as they were, and if the request actually went out the
failure is reported by the outer handler (it may instead not go out at
all, when setup exits the process first — the transcript is equally
untouched then). -/
theorem transcript_commit_atomicity (rc : RawConfig) (store : Store)
    (messages : List Message) (contextName : String) (streaming : Bool)
    (ov : Option String) (w : World)
    (hfail : Transport.failed
      (if tookOllama rc ov then w.daemon else w.cloud) = true) :
    (sendAIQueryWithContext rc store messages contextName streaming ov w).store
        = store ∧
    (sendAIQueryWithContext rc store messages contextName streaming ov w).messages
        = messages ∧
    ((sendAIQueryWithContext rc store messages contextName streaming ov w).requested
        = true →
      (sendAIQueryWithContext rc store messages contextName streaming ov w).reported
        = true) := by
  by_cases hto : tookOllama rc ov = true
  · rw [if_pos hto] at hfail
    have he : sendAIQueryWithContext rc store messages contextName streaming ov w
        = ollamaRespond store w.now contextName messages
            (sendOllamaQuery rc w streaming) := by
      simp only [sendAIQueryWithContext]
      rw [hto, if_pos rfl]
    rw [he]
    exact ollamaRespond_abort store w.now contextName messages
      (sendOllamaQuery rc w streaming)
      (sendOllamaQuery_fail rc w streaming hfail)
  · have hto' : tookOllama rc ov = false := by
      revert hto; cases tookOllama rc ov <;> simp
    rw [if_neg hto] at hfail
    rcases hk : getAPIKey rc w with _ | ⟨k, rc1⟩
    · simp [sendAIQueryWithContext, hto', hk]
    · have he : sendAIQueryWithContext rc store messages contextName streaming ov w
          = cloudRespond (effectiveModel rc ov) store w.now contextName
              messages streaming w.cloud := by
        simp only [sendAIQueryWithContext]
        rw [hto', hk, if_neg Bool.false_ne_true]
      rw [he]
      exact cloudRespond_fail (effectiveModel rc ov) store w.now contextName
        messages streaming w.cloud hfail

/-- Witness for C1: a configured cloud invocation whose connection drops. -/
theorem transcript_commit_atomicity_witness :
    (sendAIQueryWithContext
        ⟨some "k", some "openrouter", some "m", none, none⟩ []
        [⟨"user", "hi"⟩] "ctx" true none
        ⟨true, "", "", "", Transport.netError, Transport.netError, 0⟩).store
      = ([] : Store) ∧
    (sendAIQueryWithContext
        ⟨some "k", some "openrouter", some "m", none, none⟩ []
        [⟨"user", "hi"⟩] "ctx" true none
        ⟨true, "", "", "", Transport.netError, Transport.netError, 0⟩).messages
      = [⟨"user", "hi"⟩] ∧
    ((sendAIQueryWithContext
        ⟨some "k", some "openrouter", some "m", none, none⟩ []
        [⟨"user", "hi"⟩] "ctx" true none
        ⟨true, "", "", "", Transport.netError, Transport.netError, 0⟩).requested
      = true →
     (sendAIQueryWithContext
        ⟨some "k", some "openrouter", some "m", none, none⟩ []
        [⟨"user", "hi"⟩] "ctx" true none
        ⟨true, "", "", "", Transport.netError, Transport.netError, 0⟩).reported
      = true) :=
  transcript_commit_atomicity
    ⟨some "k", some "openrouter", some "m", none, none⟩ []
    [⟨"user", "hi"⟩] "ctx" true none
    ⟨true, "", "", "", Transport.netError, Transport.netError, 0⟩ (by decide)

/-- **C7.** Provider and model resolution: the local-daemon path is taken
exactly when the configured provider is `"ollama"` and no (truthy) model
override was passed — an override forces the cloud path — and whenever a
request goes out, the model id in its body is the override if given, else
the provider-specific configured entry (`ollamaModel` locally, `model` on
the cloud), else that provider's hardcoded fallback constant. -/
theorem provider_model_resolution (rc : RawConfig) (store : Store)
    (messages : List Message) (contextName : String) (streaming : Bool)
    (ov : Option String) (w : World)
    (hreq : (sendAIQueryWithContext rc store messages contextName streaming ov w).requested
      = true) :
    (sendAIQueryWithContext rc store messages contextName streaming ov w).reqOllama
      = (((loadConfig rc).provider == "ollama") && !(truthyS ov)) ∧
    (sendAIQueryWithContext rc store messages contextName streaming ov w).reqModel
      = specEffectiveModel ov rc (tookOllama rc ov) := by
  by_cases hto : tookOllama rc ov = true
  · have hto2 : (((loadConfig rc).provider == "ollama") && !(truthyS ov)) = true :=
      hto
    have he : sendAIQueryWithContext rc store messages contextName streaming ov w
        = ollamaRespond store w.now contextName messages
            (sendOllamaQuery rc w streaming) := by
      simp only [sendAIQueryWithContext]
      rw [hto, if_pos rfl]
    rcases hq : sendOllamaQuery rc w streaming with ⟨q, m⟩
    rw [hq] at he
    rw [he] at hreq ⊢
    have hm : m = orDefault rc.ollamaModel DEFAULT_OLLAMA_MODEL := by
      have h2 := sendOllamaQuery_model rc w streaming
      rw [hq] at h2
      exact h2
    have hid := ollamaRespond_ids store w.now contextName messages q m
    refine ⟨?_, ?_⟩
    · rw [hid.1]
      exact hto2.symm
    · rw [hid.2 hreq, hto, specEffectiveModel_local rc ov hto]
      exact hm
  · have hto' : tookOllama rc ov = false := by
      revert hto; cases tookOllama rc ov <;> simp
    have hto2' : (((loadConfig rc).provider == "ollama") && !(truthyS ov)) = false :=
      hto'
    rcases hk : getAPIKey rc w with _ | ⟨k, rc1⟩
    · simp [sendAIQueryWithContext, hto', hk] at hreq
    · have he : sendAIQueryWithContext rc store messages contextName streaming ov w
          = cloudRespond (effectiveModel rc ov) store w.now contextName
              messages streaming w.cloud := by
        simp only [sendAIQueryWithContext]
        rw [hto', hk, if_neg Bool.false_ne_true]
      rw [he]
      have hid := cloudRespond_ids (effectiveModel rc ov) store w.now
        contextName messages streaming w.cloud
      refine ⟨?_, ?_⟩
      · rw [hid.1]
        exact hto2'.symm
      · rw [hid.2, hto']
        exact effectiveModel_cloud rc ov hto'

/-- Witness for C7: provider `"ollama"`, no override, a configured
non-default model, a live daemon — the request goes to the daemon with the
configured model. -/
theorem provider_model_resolution_witness :
    (sendAIQueryWithContext
        ⟨none, some "ollama", none, none, some "m7"⟩ [] [] "ctx" true none
        ⟨true, "", "", "", Transport.netError, Transport.ok [] none, 0⟩).reqOllama
      = (((loadConfig ⟨none, some "ollama", none, none, some "m7"⟩).provider
          == "ollama") && !(truthyS (none : Option String))) ∧
    (sendAIQueryWithContext
        ⟨none, some "ollama", none, none, some "m7"⟩ [] [] "ctx" true none
        ⟨true, "", "", "", Transport.netError, Transport.ok [] none, 0⟩).reqModel
      = specEffectiveModel none ⟨none, some "ollama", none, none, some "m7"⟩
          (tookOllama ⟨none, some "ollama", none, none, some "m7"⟩ none) :=
  provider_model_resolution
    ⟨none, some "ollama", none, none, some "m7"⟩ [] [] "ctx" true none
    ⟨true, "", "", "", Transport.netError, Transport.ok [] none, 0⟩ rfl

/-- **C9.** Empty response produces no persistence: whenever the value at
the save check is the empty string (for example a stream that terminated
without yielding a fragment) or undefined (a payload lacking the expected
content field), no assistant message is appended and the context store is
not written. -/
theorem empty_response_no_persistence (rc : RawConfig) (store : Store)
    (messages : List Message) (contextName : String) (streaming : Bool)
    (ov : Option String) (w : World)
    (hempty : (sendAIQueryWithContext rc store messages contextName streaming ov w).assistant
        = JVal.str "" ∨
      (sendAIQueryWithContext rc store messages contextName streaming ov w).assistant
        = JVal.undef) :
    (sendAIQueryWithContext rc store messages contextName streaming ov w).store
        = store ∧
    (sendAIQueryWithContext rc store messages contextName streaming ov w).messages
        = messages := by
  by_cases hto : tookOllama rc ov = true
  · have he : sendAIQueryWithContext rc store messages contextName streaming ov w
        = ollamaRespond store w.now contextName messages
            (sendOllamaQuery rc w streaming) := by
      simp only [sendAIQueryWithContext]
      rw [hto, if_pos rfl]
    rcases hq : sendOllamaQuery rc w streaming with ⟨q, m⟩
    rw [hq] at he
    rw [he] at hempty ⊢
    exact ollamaRespond_empty store w.now contextName messages q m hempty
  · have hto' : tookOllama rc ov = false := by
      revert hto; cases tookOllama rc ov <;> simp
    rcases hk : getAPIKey rc w with _ | ⟨k, rc1⟩
    · simp [sendAIQueryWithContext, hto', hk]
    · have he : sendAIQueryWithContext rc store messages contextName streaming ov w
          = cloudRespond (effectiveModel rc ov) store w.now contextName
              messages streaming w.cloud := by
        simp only [sendAIQueryWithContext]
        rw [hto', hk, if_neg Bool.false_ne_true]
      rw [he] at hempty ⊢
      exact cloudRespond_empty (effectiveModel rc ov) store w.now contextName
        messages streaming w.cloud hempty

/-- Witness for C9: a cloud stream that ends without yielding a fragment
leaves the store and the message list untouched. -/
theorem empty_response_no_persistence_witness :
    (sendAIQueryWithContext
        ⟨some "k", some "openrouter", some "m", none, none⟩ []
        [⟨"user", "hi"⟩] "ctx" true none
        ⟨true, "", "", "", Transport.ok [] none, Transport.netError, 0⟩).store
      = ([] : Store) ∧
    (sendAIQueryWithContext
        ⟨some "k", some "openrouter", some "m", none, none⟩ []
        [⟨"user", "hi"⟩] "ctx" true none
        ⟨true, "", "", "", Transport.ok [] none, Transport.netError, 0⟩).messages
      = [⟨"user", "hi"⟩] :=
  empty_response_no_persistence
    ⟨some "k", some "openrouter", some "m", none, none⟩ []
    [⟨"user", "hi"⟩] "ctx" true none
    ⟨true, "", "", "", Transport.ok [] none, Transport.netError, 0⟩
    (Or.inl rfl)

end AiCli
